import Mathlib

/-!
Verification development for the Knightmare chess engine core
(`chess_engine/{utils,board,game_state,move_generation,evaluation,search}.py`).

The Python code is shallowly embedded:
* a board is a `List Char` of 64 cells (`'.'` = empty, piece letters as in FEN);
* Python exceptions (`ValueError` on a bad FEN / an empty source square /
  a missing king) are modelled by `Option` results;
* the Python `dict` used for the repetition table is modelled by an ordered
  association list with insert-in-place-or-append and remove, which matches
  CPython dict insertion-order semantics;
* the move-history list with `append`/`pop` at the end is modelled as a stack
  with push/pop at the head;
* Python floats are modelled by `ℚ` plus explicit `negInf`/`posInf`
  (the search only negates, maxes and compares scores, so this is exact for
  every path that avoids NaN, and no NaN can arise here);
* `sorted(key=move_score, reverse=True)` is a stable descending sort, which is
  extensionally equal to the stable insertion sort used here.
-/

namespace Knightmare

/-! ### utils.py -/

/-- Source `FILES = "abcdefgh"`. -/
def FILES : List Char := ['a', 'b', 'c', 'd', 'e', 'f', 'g', 'h']

/-- Source `RANKS = "12345678"`. -/
def RANKS : List Char := ['1', '2', '3', '4', '5', '6', '7', '8']

/-- Source `index_to_square`: 0-63 index to algebraic square, e.g. `e4`.
`f"{FILES[col]}{8-row}"`; for the indices 0..63 actually used, the rank digit
is the single character `'1'`..`'8'`. -/
def index_to_square (index : Nat) : String :=
  String.mk [FILES.getD (index % 8) ' ', Char.ofNat (48 + (8 - index / 8))]

/-- Source `square_to_index`: algebraic square to 0-63 index, `ValueError`
(modelled as `none`) on anything that is not a file letter plus rank digit. -/
def square_to_index (square : String) : Option Nat :=
  match square.data with
  | [f, r] =>
    if FILES.contains f && RANKS.contains r then
      some ((8 - (r.toNat - 48)) * 8 + (FILES.indexOf f))
    else none
  | _ => none

/-- Total wrapper for `square_to_index` at the call sites where the Python code
passes a known-good literal (the castling squares inside `make_move` and
`generate_pseudo_legal_moves`); on those literals it never falls back. -/
def sqIx (square : String) : Nat := (square_to_index square).getD 0

/-- Source `piece_color`: `'w'` for an uppercase piece, `'b'` for a lowercase
one, `None` for the empty cell `"."`. -/
def piece_color (piece : Char) : Option Char :=
  if piece = '.' then none else if piece.isUpper then some 'w' else some 'b'

/-- Source `PIECE_VALUES` dict (looked up at an uppercased piece letter). -/
def PIECE_VALUES (c : Char) : Nat :=
  if c = 'P' then 100 else if c = 'N' then 320 else if c = 'B' then 330
  else if c = 'R' then 500 else if c = 'Q' then 900 else 0

/-! ### board.py -/

/-- Read `board[i]`; Python indexing on the 64-cell list, total here with the
empty cell as default (all indices used by generated moves are in range). -/
def boardGet (b : List Char) (i : Nat) : Char := b.getD i '.'

/-- Python `str.split(sep)` for a single-character separator, on char lists. -/
def splitChar (sep : Char) (cs : List Char) : List (List Char) :=
  cs.foldr
    (fun c acc =>
      match acc with
      | [] => [[c]]
      | a :: as_ => if c = sep then [] :: a :: as_ else (c :: a) :: as_)
    [[]]

/-- Digit character to its value, Python `int(ch)` for a single digit. -/
def digitVal (c : Char) : Nat := c.toNat - 48

/-- Expansion of one FEN row: digits become that many empty cells, every other
character stands for itself (the inner loop of `Board.from_fen`). -/
def expandRow : List Char → List Char
  | [] => []
  | c :: r =>
    if c.isDigit then List.replicate (digitVal c) '.' ++ expandRow r
    else c :: expandRow r

/-- Source `Board.from_fen`: split on `/`, expect 8 rows, expand digits,
expect 64 cells; `ValueError` is modelled as `none`. -/
def board_from_fen (board_fen : String) : Option (List Char) :=
  let rows := splitChar '/' board_fen.data
  if rows.length ≠ 8 then none
  else
    let squares := rows.flatMap expandRow
    if squares.length ≠ 64 then none else some squares

/-- Run-length encoding of one board row (the inner loop of `Board.to_fen`,
with `e` the running count of empties; `str(empty)` is `Nat.repr`). -/
def rleRow : List Char → Nat → List Char
  | [], e => if e = 0 then [] else (Nat.repr e).data
  | c :: r, e =>
    if c = '.' then rleRow r (e + 1)
    else (if e = 0 then [] else (Nat.repr e).data) ++ c :: rleRow r 0

/-- Source `Board.to_fen`: 8 rows of 8 cells, each run-length encoded,
joined with `/`. -/
def board_to_fen (b : List Char) : String :=
  String.mk (List.intercalate ['/']
    ((List.range 8).map (fun r => rleRow ((b.drop (r * 8)).take 8) 0)))

/-- Source `Board.locate_king`: first index holding the king of the colour;
the `ValueError` on a missing king is modelled as `none`. -/
def locate_king (b : List Char) (color : Char) : Option Nat :=
  b.findIdx? (fun piece => piece = (if color = 'w' then 'K' else 'k'))

/-- Source `START_FEN` board section. -/
def START_FEN : String := "rnbqkbnr/pppppppp/8/8/8/8/PPPPPPPP/RNBQKBNR"

/-! ### game_state.py : data -/

/-- Source dataclass `Move` (structural equality, as in Python). -/
structure Move where
  from_square : Nat
  to_square : Nat
  promotion : Option Char := none
  is_castle : Bool := false
  is_en_passant : Bool := false
  captured : Option Char := none
deriving DecidableEq, Repr

/-- One record of `GameState.history` (the dict pushed by `make_move`). -/
structure HistEntry where
  move : Move
  captured : Option Char
  moved_piece : Char
  prev_castling : List Char
  prev_en_passant : Option Nat
  prev_halfmove : Nat
  prev_fullmove : Nat
  prev_side : Char
  rook_move : Option (Nat × Nat × Char)
  ep_capture_square : Option Nat
  rep_key : String
deriving DecidableEq, Repr

/-- Source class `GameState`. `castling_rights` is the string of still-held
rights (kept as its character list), `repetition` the insertion-ordered dict
from repetition key to occurrence count. -/
structure GameState where
  board : List Char
  side_to_move : Char
  castling_rights : List Char
  en_passant : Option Nat
  halfmove_clock : Nat
  fullmove_number : Nat
  history : List HistEntry
  repetition : List (String × Nat)
deriving DecidableEq, Repr

/-- Python `dict.get(k, v0)` on the ordered association list. -/
def dictGet (d : List (String × Nat)) (k : String) (v0 : Nat) : Nat :=
  match d.find? (fun p => p.1 == k) with
  | some p => p.2
  | none => v0

/-- Python `d[k] = v`: update in place if present, else append at the end. -/
def dictSet : List (String × Nat) → String → Nat → List (String × Nat)
  | [], k, v => [(k, v)]
  | p :: rest, k, v =>
    if p.1 == k then (k, v) :: rest else p :: dictSet rest k v

/-- Python `d.pop(k, None)`: drop the entry for `k` if present. -/
def dictPop : List (String × Nat) → String → List (String × Nat)
  | [], _ => []
  | p :: rest, k => if p.1 == k then rest else p :: dictPop rest k

/-- Source `GameState.repetition_key`, computed from the four components it
reads: board FEN + side + castling rights (or `-`) + en-passant square
(or `-`). -/
def repetition_key_of (b : List Char) (side : Char) (castling : List Char)
    (ep : Option Nat) : String :=
  String.mk ((board_to_fen b).data ++ [' ', side, ' ']
    ++ (if castling = [] then ['-'] else castling) ++ [' ']
    ++ (match ep with
        | none => ['-']
        | some i => (index_to_square i).data))

/-- Source `GameState.repetition_key` on a state. -/
def repetition_key (s : GameState) : String :=
  repetition_key_of s.board s.side_to_move s.castling_rights s.en_passant

/-- Source `GameState.is_draw_by_repetition`. -/
def is_draw_by_repetition (s : GameState) : Bool :=
  3 ≤ dictGet s.repetition (repetition_key s) 0

/-- Source `GameState.__init__`: normalises `"-"` castling to the empty
string, starts with empty history, and calls `update_repetition` once, so the
fresh repetition dict is `[(key, 1)]`. -/
def mkGameState (b : List Char) (side : Char) (castling : List Char)
    (ep : Option Nat) (halfmove fullmove : Nat) : GameState :=
  let cr := if castling = ['-'] then [] else castling
  { board := b
    side_to_move := side
    castling_rights := cr
    en_passant := ep
    halfmove_clock := halfmove
    fullmove_number := fullmove
    history := []
    repetition := dictSet [] (repetition_key_of b side cr ep) 1 }

/-- Python `int` on a digit string (char list); the forms `int` accepts that
are not plain digit runs (signs, surrounding whitespace) cannot occur in a
well-formed FEN and are rejected here. -/
def strToNat? (cs : List Char) : Option Nat :=
  if cs ≠ [] ∧ cs.all Char.isDigit then
    some (cs.foldl (fun n c => n * 10 + (c.toNat - 48)) 0)
  else none

/-- Source `GameState.from_fen`: six space-separated fields; every
`ValueError` (wrong field count, bad board, bad square, bad int) is `none`.
Python splits on whitespace runs, modelled by dropping empty fragments. -/
def game_state_from_fen (fen : String) : Option GameState :=
  match (splitChar ' ' fen.data).filter (fun p => p ≠ []) with
  | [p0, p1, p2, p3, p4, p5] =>
    match board_from_fen (String.mk p0), p1 with
    | some b, [side] =>
      let castling := if p2 = ['-'] then [] else p2
      match (if p3 = ['-'] then some none
             else (square_to_index (String.mk p3)).map some) with
      | some ep =>
        match strToNat? p4, strToNat? p5 with
        | some halfmove, some fullmove =>
          some (mkGameState b side castling ep halfmove fullmove)
        | _, _ => none
      | none => none
    | _, _ => none
  | _ => none

/-- Source `GameState.to_fen`. -/
def game_state_to_fen (s : GameState) : String :=
  String.mk ((board_to_fen s.board).data ++ [' ', s.side_to_move, ' ']
    ++ (if s.castling_rights = [] then ['-'] else s.castling_rights) ++ [' ']
    ++ (match s.en_passant with
        | none => ['-']
        | some i => (index_to_square i).data)
    ++ [' '] ++ (Nat.repr s.halfmove_clock).data
    ++ [' '] ++ (Nat.repr s.fullmove_number).data)

/-! ### game_state.py : attack detection -/

/-- Python `on_board(r, c)` with signed coordinates. -/
def onb (r c : Int) : Bool := 0 ≤ r && r < 8 && 0 ≤ c && c < 8

/-- Board read at signed row/column coordinates (only used after `onb`). -/
def bAt (b : List Char) (r c : Int) : Char := boardGet b (r * 8 + c).toNat

/-- One sliding ray of `is_square_attacked`: walk from `(r, c)` in direction
`(dr, dc)` until off board or blocked; a blocker attacks iff it is one of
`targets`.  The fuel `8` strictly exceeds the seven on-board steps a ray can
take, so the fuel never runs out while still on the board. -/
def rayHit (b : List Char) (targets : List Char) :
    Int → Int → Int → Int → Nat → Bool
  | _, _, _, _, 0 => false
  | r, c, dr, dc, fuel + 1 =>
    if onb r c then
      let piece := bAt b r c
      if piece ≠ '.' then targets.contains piece
      else rayHit b targets (r + dr) (c + dc) dr dc fuel
    else false

/-- The eight knight offsets of the source. -/
def knight_steps : List (Int × Int) :=
  [(-2, -1), (-2, 1), (-1, -2), (-1, 2), (1, -2), (1, 2), (2, -1), (2, 1)]

/-- The four diagonal directions of the source. -/
def diag_dirs : List (Int × Int) := [(-1, -1), (-1, 1), (1, -1), (1, 1)]

/-- The four orthogonal directions of the source. -/
def ortho_dirs : List (Int × Int) := [(-1, 0), (1, 0), (0, -1), (0, 1)]

/-- Source `GameState.is_square_attacked(square, by_color)`. -/
def is_square_attacked (s : GameState) (square : Nat) (by_color : Char) :
    Bool :=
  let row : Int := (square : Int) / 8
  let col : Int := (square : Int) % 8
  let b := s.board
  let pawn_dir : Int := if by_color = 'w' then 1 else -1
  let pawnAtt := [(-1 : Int), 1].any (fun dc =>
    let pr := row + pawn_dir
    let pc := col + dc
    onb pr pc &&
      ((by_color = 'w' && bAt b pr pc = 'P')
        || (by_color = 'b' && bAt b pr pc = 'p')))
  let knightAtt := knight_steps.any (fun d =>
    let nr := row + d.1
    let nc := col + d.2
    onb nr nc &&
      ((by_color = 'w' && bAt b nr nc = 'N')
        || (by_color = 'b' && bAt b nr nc = 'n')))
  let diagAtt := diag_dirs.any (fun d =>
    rayHit b
      ((if by_color = 'w' then ['B', 'Q'] else [])
        ++ (if by_color = 'b' then ['b', 'q'] else []))
      (row + d.1) (col + d.2) d.1 d.2 8)
  let orthoAtt := ortho_dirs.any (fun d =>
    rayHit b
      ((if by_color = 'w' then ['R', 'Q'] else [])
        ++ (if by_color = 'b' then ['r', 'q'] else []))
      (row + d.1) (col + d.2) d.1 d.2 8)
  let kingAtt := (diag_dirs ++ ortho_dirs).any (fun d =>
    let nr := row + d.1
    let nc := col + d.2
    onb nr nc &&
      ((by_color = 'w' && bAt b nr nc = 'K')
        || (by_color = 'b' && bAt b nr nc = 'k')))
  pawnAtt || knightAtt || diagAtt || orthoAtt || kingAtt

/-- Source `GameState.is_in_check(color)`; the `ValueError` raised through
`locate_king` when the king is absent is modelled as `none`. -/
def is_in_check (s : GameState) (color : Char) : Option Bool :=
  (locate_king s.board color).map
    (fun king_sq => is_square_attacked s king_sq (if color = 'w' then 'b' else 'w'))

/-- Source `GameState.insufficient_material`. -/
def insufficient_material (s : GameState) : Bool :=
  let pieces := s.board.filter (fun p => p ≠ '.')
  if pieces.all (fun p => p.toUpper = 'K') then true
  else if pieces.length = 3 then
    (pieces.filter (fun p => p.toUpper = 'B' || p.toUpper = 'N')).length = 1
  else false

/-! ### game_state.py : make_move / undo_move -/

/-- Python `str.replace(right, "")` on the castling-rights string. -/
def removeRight (cr : List Char) (right : Char) : List Char :=
  cr.filter (fun c => c ≠ right)

/-- The en-passant victim square of `make_move`: one rank behind `to`
(toward the mover). -/
def ep_cap_sq (side : Char) (toSq : Nat) : Nat :=
  if side = 'w' then toSq + 8 else toSq - 8

/-- The castling rook relocation of `make_move`: `(rook_from, rook_to)` for
the four castle destination squares g1=62, c1=58, g8=6, c8=2. -/
def rook_squares (toSq : Nat) : Option (Nat × Nat) :=
  if toSq = sqIx "g1" then some (sqIx "h1", sqIx "f1")
  else if toSq = sqIx "c1" then some (sqIx "a1", sqIx "d1")
  else if toSq = sqIx "g8" then some (sqIx "h8", sqIx "f8")
  else if toSq = sqIx "c8" then some (sqIx "a8", sqIx "d8")
  else none

/-- Source `GameState.make_move`, as a pure step function.  The `ValueError`
on an empty source square is `none`.  Every other step follows the source in
order: en-passant victim removal, piece move with promotion, castling rook
relocation, castling-rights stripping, en-passant target, clocks, side flip,
repetition increment, history push. -/
def make_move (s : GameState) (m : Move) : Option GameState :=
  let b0 := s.board
  let moved_piece := boardGet b0 m.from_square
  if moved_piece = '.' then none
  else
    let target_piece := boardGet b0 m.to_square
    let epcap : Option Nat :=
      if m.is_en_passant then some (ep_cap_sq s.side_to_move m.to_square)
      else none
    let captured : Option Char :=
      match epcap with
      | some e => some (boardGet b0 e)
      | none => if target_piece ≠ '.' then some target_piece else none
    let b1 := match epcap with
      | some e => b0.set e '.'
      | none => b0
    let placed := match m.promotion with
      | some p => if s.side_to_move = 'w' then p.toUpper else p.toLower
      | none => moved_piece
    let b2 := (b1.set m.from_square '.').set m.to_square placed
    let rookSq := if m.is_castle then rook_squares m.to_square else none
    let rook_move : Option (Nat × Nat × Char) :=
      rookSq.map (fun rr : Nat × Nat => (rr.1, rr.2, boardGet b2 rr.1))
    let b3 := match rookSq with
      | some (rf, rt) => (b2.set rf '.').set rt (boardGet b2 rf)
      | none => b2
    let crA :=
      if moved_piece = 'K' then removeRight (removeRight s.castling_rights 'K') 'Q'
      else if moved_piece = 'k' then
        removeRight (removeRight s.castling_rights 'k') 'q'
      else s.castling_rights
    let crB :=
      if moved_piece = 'R' then
        (if m.from_square = sqIx "a1" then removeRight crA 'Q'
         else if m.from_square = sqIx "h1" then removeRight crA 'K' else crA)
      else crA
    let crC :=
      if moved_piece = 'r' then
        (if m.from_square = sqIx "a8" then removeRight crB 'q'
         else if m.from_square = sqIx "h8" then removeRight crB 'k' else crB)
      else crB
    let crD := if captured = some 'R' && m.to_square = sqIx "a1" then
        removeRight crC 'Q' else crC
    let crE := if captured = some 'R' && m.to_square = sqIx "h1" then
        removeRight crD 'K' else crD
    let crF := if captured = some 'r' && m.to_square = sqIx "a8" then
        removeRight crE 'q' else crE
    let crG := if captured = some 'r' && m.to_square = sqIx "h8" then
        removeRight crF 'k' else crF
    let ep' : Option Nat :=
      if moved_piece.toUpper = 'P'
          && ((m.to_square : Int) - (m.from_square : Int)).natAbs = 16 then
        some ((m.to_square + m.from_square) / 2)
      else none
    let halfmove' :=
      if moved_piece.toUpper = 'P' || captured.isSome then 0
      else s.halfmove_clock + 1
    let fullmove' :=
      if s.side_to_move = 'b' then s.fullmove_number + 1 else s.fullmove_number
    let side' := if s.side_to_move = 'w' then 'b' else 'w'
    let key := repetition_key_of b3 side' crG ep'
    let rep' := dictSet s.repetition key (dictGet s.repetition key 0 + 1)
    let entry : HistEntry :=
      { move := m
        captured := captured
        moved_piece := moved_piece
        prev_castling := s.castling_rights
        prev_en_passant := s.en_passant
        prev_halfmove := s.halfmove_clock
        prev_fullmove := s.fullmove_number
        prev_side := s.side_to_move
        rook_move := rook_move
        ep_capture_square := epcap
        rep_key := key }
    some
      { board := b3
        side_to_move := side'
        castling_rights := crG
        en_passant := ep'
        halfmove_clock := halfmove'
        fullmove_number := fullmove'
        history := entry :: s.history
        repetition := rep' }

/-- Source `GameState.undo_move`: no-op on empty history, otherwise pop the
last record, decrement (and drop at zero) its repetition key, restore the
metadata verbatim and reverse the board edits. -/
def undo_move (s : GameState) : GameState :=
  match s.history with
  | [] => s
  | last :: rest =>
    let m := last.move
    let v := dictGet s.repetition last.rep_key 1 - 1
    let rep1 := dictSet s.repetition last.rep_key v
    let rep2 := if v = 0 then dictPop rep1 last.rep_key else rep1
    let b1 := (s.board.set m.from_square last.moved_piece).set m.to_square
      (last.captured.getD '.')
    let b2 :=
      if m.is_en_passant then
        match last.ep_capture_square with
        | some e => (b1.set m.to_square '.').set e (last.captured.getD '.')
        | none => b1
      else b1
    let b3 := if m.promotion.isSome then b2.set m.from_square last.moved_piece
      else b2
    let b4 :=
      match (if m.is_castle then last.rook_move else none) with
      | some rr => (b3.set rr.1 rr.2.2).set rr.2.1 '.'
      | none => b3
    { board := b4
      side_to_move := last.prev_side
      castling_rights := last.prev_castling
      en_passant := last.prev_en_passant
      halfmove_clock := last.prev_halfmove
      fullmove_number := last.prev_fullmove
      history := rest
      repetition := rep2 }

/-! ### move_generation.py -/

/-- The four promotion moves of a promoting push (source order Q, R, B, N). -/
def promo_pushes (idx dest : Nat) : List Move :=
  [⟨idx, dest, some 'Q', false, false, none⟩,
   ⟨idx, dest, some 'R', false, false, none⟩,
   ⟨idx, dest, some 'B', false, false, none⟩,
   ⟨idx, dest, some 'N', false, false, none⟩]

/-- The four promotion moves of a promoting capture (source order Q, R, B, N). -/
def promo_captures (idx dest : Nat) (target_piece : Char) : List Move :=
  [⟨idx, dest, some 'Q', false, false, some target_piece⟩,
   ⟨idx, dest, some 'R', false, false, some target_piece⟩,
   ⟨idx, dest, some 'B', false, false, some target_piece⟩,
   ⟨idx, dest, some 'N', false, false, some target_piece⟩]

/-- The pawn block of `generate_pseudo_legal_moves` for the pawn on `idx`. -/
def pawn_moves (s : GameState) (idx : Nat) : List Move :=
  let b := s.board
  let side := s.side_to_move
  let enemy := if side = 'w' then 'b' else 'w'
  let row : Int := (idx : Int) / 8
  let col : Int := (idx : Int) % 8
  let dir : Int := if side = 'w' then -1 else 1
  let start_row : Int := if side = 'w' then 6 else 1
  let promo_row : Int := if side = 'w' then 0 else 7
  let fwd_r := row + dir
  let pushes :=
    if onb fwd_r col then
      let dest := (fwd_r * 8 + col).toNat
      if boardGet b dest = '.' then
        (if fwd_r = promo_row then promo_pushes idx dest
         else [⟨idx, dest, none, false, false, none⟩])
        ++ (if row = start_row then
              let dest2 := ((row + 2 * dir) * 8 + col).toNat
              if boardGet b dest2 = '.' then
                [⟨idx, dest2, none, false, false, none⟩]
              else []
            else [])
      else []
    else []
  let caps := [(-1 : Int), 1].flatMap (fun dc =>
    let cr := row + dir
    let cc := col + dc
    if onb cr cc then
      let target := (cr * 8 + cc).toNat
      let target_piece := boardGet b target
      (if target_piece ≠ '.' && piece_color target_piece = some enemy then
        (if cr = promo_row then promo_captures idx target target_piece
         else [⟨idx, target, none, false, false, some target_piece⟩])
       else [])
      ++ (if s.en_passant = some target then
            [⟨idx, target, none, false, true, none⟩]
          else [])
    else [])
  pushes ++ caps

/-- The knight/king offset block: fixed offsets filtered to on-board squares
that are empty or enemy-occupied. -/
def step_moves (s : GameState) (idx : Nat) (steps : List (Int × Int)) :
    List Move :=
  let b := s.board
  let enemy := if s.side_to_move = 'w' then 'b' else 'w'
  let row : Int := (idx : Int) / 8
  let col : Int := (idx : Int) % 8
  steps.flatMap (fun d =>
    let nr := row + d.1
    let nc := col + d.2
    if onb nr nc then
      let dest := (nr * 8 + nc).toNat
      let target_piece := boardGet b dest
      if target_piece = '.' then [⟨idx, dest, none, false, false, none⟩]
      else if piece_color target_piece = some enemy then
        [⟨idx, dest, none, false, false, some target_piece⟩]
      else []
    else [])

/-- One sliding ray of the bishop/rook/queen block: emit quiet moves until a
blocker, a capture move iff the blocker is an enemy, then stop.  Fuel as in
`rayHit`. -/
def slide_ray (b : List Char) (idx : Nat) (enemy : Char) :
    Int → Int → Int → Int → Nat → List Move
  | _, _, _, _, 0 => []
  | r, c, dr, dc, fuel + 1 =>
    if onb r c then
      let dest := (r * 8 + c).toNat
      let target_piece := boardGet b dest
      if target_piece = '.' then
        ⟨idx, dest, none, false, false, none⟩
          :: slide_ray b idx enemy (r + dr) (c + dc) dr dc fuel
      else if piece_color target_piece = some enemy then
        [⟨idx, dest, none, false, false, some target_piece⟩]
      else []
    else []

/-- The sliding block for the piece on `idx` with the given direction set. -/
def slide_moves (s : GameState) (idx : Nat) (dirs : List (Int × Int)) :
    List Move :=
  let enemy := if s.side_to_move = 'w' then 'b' else 'w'
  let row : Int := (idx : Int) / 8
  let col : Int := (idx : Int) % 8
  dirs.flatMap (fun d =>
    slide_ray s.board idx enemy (row + d.1) (col + d.2) d.1 d.2 8)

/-- The castling section of the king block (appended after the king steps). -/
def castle_moves (s : GameState) (idx : Nat) : List Move :=
  let b := s.board
  let side := s.side_to_move
  let enemy := if side = 'w' then 'b' else 'w'
  let row : Int := (idx : Int) / 8
  let col : Int := (idx : Int) % 8
  if side = 'w' && row = 7 && col = 4 then
    (if s.castling_rights.contains 'K'
        && boardGet b (sqIx "f1") = '.' && boardGet b (sqIx "g1") = '.'
        && !is_square_attacked s idx enemy
        && !is_square_attacked s (sqIx "f1") enemy
        && !is_square_attacked s (sqIx "g1") enemy then
      [⟨idx, sqIx "g1", none, true, false, none⟩]
     else [])
    ++ (if s.castling_rights.contains 'Q'
        && boardGet b (sqIx "b1") = '.' && boardGet b (sqIx "c1") = '.'
        && boardGet b (sqIx "d1") = '.'
        && !is_square_attacked s idx enemy
        && !is_square_attacked s (sqIx "d1") enemy
        && !is_square_attacked s (sqIx "c1") enemy then
      [⟨idx, sqIx "c1", none, true, false, none⟩]
     else [])
  else if side = 'b' && row = 0 && col = 4 then
    (if s.castling_rights.contains 'k'
        && boardGet b (sqIx "f8") = '.' && boardGet b (sqIx "g8") = '.'
        && !is_square_attacked s idx enemy
        && !is_square_attacked s (sqIx "f8") enemy
        && !is_square_attacked s (sqIx "g8") enemy then
      [⟨idx, sqIx "g8", none, true, false, none⟩]
     else [])
    ++ (if s.castling_rights.contains 'q'
        && boardGet b (sqIx "b8") = '.' && boardGet b (sqIx "c8") = '.'
        && boardGet b (sqIx "d8") = '.'
        && !is_square_attacked s idx enemy
        && !is_square_attacked s (sqIx "d8") enemy
        && !is_square_attacked s (sqIx "c8") enemy then
      [⟨idx, sqIx "c8", none, true, false, none⟩]
     else [])
  else []

/-- The king direction table of the source. -/
def king_dirs : List (Int × Int) :=
  [(-1, -1), (-1, 0), (-1, 1), (0, -1), (0, 1), (1, -1), (1, 0), (1, 1)]

/-- The per-square dispatch of `generate_pseudo_legal_moves` for the piece on
`idx` (already known to belong to the side to move). -/
def piece_moves_at (s : GameState) (idx : Nat) (piece : Char) : List Move :=
  let upper := piece.toUpper
  if upper = 'P' then pawn_moves s idx
  else if upper = 'N' then step_moves s idx knight_steps
  else if upper = 'B' || upper = 'R' || upper = 'Q' then
    slide_moves s idx
      ((if upper = 'B' || upper = 'Q' then diag_dirs else [])
        ++ (if upper = 'R' || upper = 'Q' then ortho_dirs else []))
  else if upper = 'K' then step_moves s idx king_dirs ++ castle_moves s idx
  else []

/-- Source `generate_pseudo_legal_moves`: every occupied square of the side
to move contributes its per-piece candidate moves, in board order. -/
def generate_pseudo_legal_moves (s : GameState) : List Move :=
  s.board.enum.flatMap (fun p =>
    if p.2 = '.' || piece_color p.2 ≠ some s.side_to_move then []
    else piece_moves_at s p.1 p.2)

/-- Source `generate_legal_moves`: keep a pseudo-legal move iff after applying
it the mover's king is not in check (then undo).  The undo is sound for every
pseudo-legal move (theorem `make_undo_of_pseudo`), so filtering against the
original state is exact.  A pseudo-legal move always has an occupied source
square, so `make_move` cannot return `none` here (that arm is unreachable). -/
def generate_legal_moves (s : GameState) : List Move :=
  (generate_pseudo_legal_moves s).filter (fun m =>
    match make_move s m with
    | some s2 => is_in_check s2 s.side_to_move == some false
    | none => false)

/-! ### evaluation.py -/

/-- Source `simple_material_eval`: signed material sum, divided by 4000 and
negated for black to move (Python float arithmetic is exact here up to
rounding; modelled over `ℚ`). -/
def simple_material_eval (s : GameState) : ℚ :=
  let score : Int := s.board.foldl
    (fun acc piece =>
      if piece = '.' then acc
      else if piece_color piece = some 'w' then
        acc + (PIECE_VALUES piece.toUpper : Int)
      else acc - (PIECE_VALUES piece.toUpper : Int))
    0
  let oriented : ℚ := (score : ℚ) / 4000
  if s.side_to_move = 'w' then oriented else -oriented

/-- Source `evaluate_position`: the learned model is outside the core, so it
is abstracted as an arbitrary function `GameState → ℚ`; with `model = None`
the evaluation is `simple_material_eval`. -/
def evaluate_position (s : GameState) (model : Option (GameState → ℚ)) : ℚ :=
  match model with
  | none => simple_material_eval s
  | some f => f s

/-! ### search.py -/

/-- Python float scores: a rational, or one of the two infinities used as
sentinels (`-math.inf` initial alpha/value, `math.inf` initial beta). -/
inductive Score where
  | negInf : Score
  | fin : ℚ → Score
  | posInf : Score
deriving DecidableEq, Repr

/-- Float `<=` on scores (total; no NaN can arise in the search). -/
def Score.le : Score → Score → Bool
  | negInf, _ => true
  | _, posInf => true
  | fin q1, fin q2 => !(Rat.blt q2 q1)
  | posInf, _ => false
  | fin _, negInf => false

/-- Float `<` on scores. -/
def Score.lt (a b : Score) : Bool := !(Score.le b a)

/-- Float negation on scores. -/
def Score.neg : Score → Score
  | negInf => posInf
  | fin q => fin (-q)
  | posInf => negInf

/-- Python `max` on two scores (returns the first argument on ties, which is
indistinguishable here since equal scores are equal values). -/
def Score.maxS (a b : Score) : Score := if Score.lt a b then b else a

/-- Source `MATE_VALUE = 10000.0`. -/
def MATE_VALUE : ℚ := 10000

/-- Source `order_moves` key: captured-piece value, else 0 (the truthiness of
a captured `"."` feeds a 0 value through `PIECE_VALUES.get`, same as 0). -/
def move_score (m : Move) : Nat :=
  match m.captured with
  | some c => PIECE_VALUES c.toUpper
  | none => 0

/-- Stable descending insertion of a move (earlier moves beat equal scores). -/
def insert_desc (m : Move) : List Move → List Move
  | [] => [m]
  | x :: xs =>
    if move_score x ≤ move_score m then m :: x :: xs
    else x :: insert_desc m xs

/-- Source `order_moves`: `sorted(key=move_score, reverse=True)` is the stable
descending sort by captured-piece value; a stable insertion sort computes the
extensionally identical list. -/
def order_moves : List Move → List Move
  | [] => []
  | m :: rest => insert_desc m (order_moves rest)

/-- The capture loop of `quiescence_search`, with the recursive call at the
next-smaller quiescence depth passed in as `recur`.  A legal move always has
an occupied source square, so the `none` arm of `make_move` is unreachable
(Python would raise there). -/
def quiescence_loop (recur : GameState → Score → Score → Score)
    (s : GameState) : List Move → Score → Score → Score
  | [], alpha, _ => alpha
  | m :: rest, alpha, beta =>
    if m.captured = none && m.is_en_passant = false then
      quiescence_loop recur s rest alpha beta
    else
      match make_move s m with
      | none => quiescence_loop recur s rest alpha beta
      | some s2 =>
        let score := Score.neg (recur s2 (Score.neg beta) (Score.neg alpha))
        if Score.le beta score then beta
        else quiescence_loop recur s rest (Score.maxS alpha score) beta

/-- Source `quiescence_search`: stand-pat cutoff, then on remaining depth a
capture-only negamax extension. -/
def quiescence_search (model : Option (GameState → ℚ)) :
    Nat → GameState → Score → Score → Score
  | 0, s, _, beta =>
    let stand_pat := Score.fin (evaluate_position s model)
    if Score.le beta stand_pat then beta else stand_pat
  | qd + 1, s, alpha, beta =>
    let stand_pat := Score.fin (evaluate_position s model)
    if Score.le beta stand_pat then beta
    else
      quiescence_loop (quiescence_search model qd) s
        (order_moves (generate_legal_moves s)) (Score.maxS alpha stand_pat)
        beta

/-- The move loop of `alpha_beta`, with the recursive call at the
next-smaller depth passed in as `recur`; `value`/`alpha` thread through and
the loop breaks when `alpha >= beta`.  As in `quiescence_loop` the `none` arm
is unreachable for legal moves. -/
def alpha_beta_loop (recur : GameState → Score → Score → Score)
    (s : GameState) : List Move → Score → Score → Score → Score
  | [], value, _, _ => value
  | m :: rest, value, alpha, beta =>
    match make_move s m with
    | none => alpha_beta_loop recur s rest value alpha beta
    | some s2 =>
      let score := Score.neg (recur s2 (Score.neg beta) (Score.neg alpha))
      let value2 := Score.maxS value score
      let alpha2 := Score.maxS alpha score
      if Score.le beta alpha2 then value2
      else alpha_beta_loop recur s rest value2 alpha2 beta

/-- Source `alpha_beta`: draw detection first (fifty-move counter at 100,
insufficient material, threefold repetition), quiescence at depth 0, mate and
stalemate scores on an empty legal-move list, else the negamax loop.  The
missing-king `ValueError` inside `is_in_check` is modelled by comparing with
`some true`. -/
def alpha_beta (model : Option (GameState → ℚ)) :
    Nat → GameState → Score → Score → Nat → Score
  | d, s, alpha, beta, qd =>
    if 100 ≤ s.halfmove_clock || insufficient_material s
        || is_draw_by_repetition s then
      Score.fin 0
    else
      match d with
      | 0 => quiescence_search model qd s alpha beta
      | d' + 1 =>
        match order_moves (generate_legal_moves s) with
        | [] =>
          if is_in_check s s.side_to_move == some true then
            Score.fin (-MATE_VALUE + (5 - ((d' + 1 : Nat) : ℚ)))
          else Score.fin 0
        | m :: rest =>
          alpha_beta_loop (fun s2 a b => alpha_beta model d' s2 a b qd) s
            (m :: rest) Score.negInf alpha beta

/-- The root loop of `search_best_move`: beta stays `+inf`, alpha is the best
score so far, and the best move updates on a strict improvement. -/
def search_root_loop (model : Option (GameState → ℚ)) (s : GameState)
    (d qd : Nat) : List Move → Option Move → Score → Option Move × Score
  | [], best, alpha => (best, alpha)
  | m :: rest, best, alpha =>
    match make_move s m with
    | none => search_root_loop model s d qd rest best alpha
    | some s2 =>
      let score := Score.neg
        (alpha_beta model (d - 1) s2 (Score.neg Score.posInf) (Score.neg alpha)
          qd)
      if Score.lt alpha score then search_root_loop model s d qd rest (some m) score
      else search_root_loop model s d qd rest best alpha

/-- Source `search_best_move`: `(None, 0.0)` when there is no legal move,
else the root negamax loop over the ordered legal moves.  `depth - 1` is the
Python expression; the claims only concern `depth ≥ 1`, where the natural
subtraction agrees with the source. -/
def search_best_move (model : Option (GameState → ℚ)) (s : GameState)
    (d qd : Nat) : Option Move × Score :=
  match order_moves (generate_legal_moves s) with
  | [] => (none, Score.fin 0)
  | m :: rest =>
    search_root_loop model s d qd (m :: rest) none Score.negInf

/-! ## Basic lemmas -/

/-- Character-arithmetic helper: `Char.ofNat` at a valid code point. -/
theorem toNat_ofNat_valid {n : Nat} (h : n.isValidChar) :
    (Char.ofNat n).toNat = n := by
  rw [Char.ofNat, dif_pos h]
  rfl

/-- `Char.toNat` is injective. -/
theorem char_toNat_inj {c d : Char} (h : c.toNat = d.toNat) : c = d := by
  have := congrArg Char.ofNat h
  rwa [Char.ofNat_toNat, Char.ofNat_toNat] at this

/-- Characters whose `toUpper` is a given basic-latin capital letter. -/
theorem toUpper_eq_iff (c U : Char) (h1 : 65 ≤ U.toNat) (h2 : U.toNat ≤ 90) :
    c.toUpper = U ↔ (c = U ∨ c.toNat = U.toNat + 32) := by
  simp only [Char.toUpper]
  by_cases h : 97 ≤ c.toNat ∧ c.toNat ≤ 122
  · rw [if_pos h]
    constructor
    · intro he
      have hv : (c.toNat - 32).isValidChar := Or.inl (by omega)
      have := congrArg Char.toNat he
      rw [toNat_ofNat_valid hv] at this
      exact Or.inr (by omega)
    · rintro (rfl | hk)
      · omega
      · have hv : (c.toNat - 32).isValidChar := Or.inl (by omega)
        apply char_toNat_inj
        rw [toNat_ofNat_valid hv]
        omega
  · rw [if_neg h]
    constructor
    · exact Or.inl
    · rintro (rfl | hk)
      · rfl
      · omega

/-- `toUpper c = 'K'` exactly for the two kings. -/
theorem toUpper_eq_K (c : Char) : c.toUpper = 'K' ↔ (c = 'K' ∨ c = 'k') := by
  rw [toUpper_eq_iff c 'K' (by decide) (by decide)]
  have : c.toNat = 107 ↔ c = 'k' :=
    ⟨fun h => char_toNat_inj (by rw [h]; rfl), fun h => by rw [h]; rfl⟩
  tauto

/-- `toUpper c = 'P'` exactly for the two pawns. -/
theorem toUpper_eq_P (c : Char) : c.toUpper = 'P' ↔ (c = 'P' ∨ c = 'p') := by
  rw [toUpper_eq_iff c 'P' (by decide) (by decide)]
  have : c.toNat = 112 ↔ c = 'p' :=
    ⟨fun h => char_toNat_inj (by rw [h]; rfl), fun h => by rw [h]; rfl⟩
  tauto

/-- `boardGet` after `set` at the written index. -/
theorem boardGet_set_eq (b : List Char) {i : Nat} (h : i < b.length)
    (x : Char) : boardGet (b.set i x) i = x := by
  simp [boardGet, List.getD_eq_getElem?_getD, List.getElem?_set_self h]

/-- `boardGet` after `set` at a different index. -/
theorem boardGet_set_ne (b : List Char) {i j : Nat} (h : i ≠ j) (x : Char) :
    boardGet (b.set i x) j = boardGet b j := by
  simp [boardGet, List.getD_eq_getElem?_getD, List.getElem?_set_ne h]

/-- Writing back the value already present is the identity. -/
theorem set_boardGet_self (b : List Char) (i : Nat) :
    b.set i (boardGet b i) = b := by
  by_cases h : i < b.length
  · apply List.ext_getElem?
    intro j
    by_cases hj : i = j
    · subst hj
      rw [List.getElem?_set_self h, boardGet, List.getD_eq_getElem?_getD,
        List.getElem?_eq_getElem h]
      rfl
    · rw [List.getElem?_set_ne hj]
  · rw [List.set_eq_of_length_le (Nat.le_of_not_lt h)]

/-- Writing a value known to equal the stored one is the identity. -/
theorem set_of_boardGet_eq (l : List Char) (i : Nat) (x : Char)
    (h : boardGet l i = x) : l.set i x = l := by
  rw [← h]
  exact set_boardGet_self l i

/-- `set` does not change the length (restated for rewriting convenience). -/
theorem length_set_board (b : List Char) (i : Nat) (x : Char) :
    (b.set i x).length = b.length := List.length_set b i x

/-- Reading back the value just written into the ordered dict. -/
theorem dictGet_dictSet_self (d : List (String × Nat)) (k : String)
    (v w : Nat) : dictGet (dictSet d k v) k w = v := by
  induction d with
  | nil => simp [dictSet, dictGet, List.find?]
  | cons p rest ih =>
    by_cases hk : p.1 == k
    · simp [dictSet, dictGet, hk, List.find?]
    · simp only [dictSet, hk, if_neg, Bool.false_eq_true, ite_false]
      simpa [dictGet, List.find?, hk] using ih

/-- Two successive writes to the same key collapse to the second. -/
theorem dictSet_dictSet (d : List (String × Nat)) (k : String) (v w : Nat) :
    dictSet (dictSet d k v) k w = dictSet d k w := by
  induction d with
  | nil => simp [dictSet]
  | cons p rest ih =>
    by_cases hk : p.1 == k
    · simp [dictSet, hk]
    · simp [dictSet, hk, ih]

/-- An absent key: looking it up with default 0 yields 0 exactly because it
is absent (given that no stored count is zero). -/
theorem find_none_of_dictGet_zero (d : List (String × Nat)) (k : String)
    (hd : ∀ p ∈ d, p.2 ≠ 0) (h : dictGet d k 0 = 0) :
    d.find? (fun p => p.1 == k) = none := by
  cases hf : d.find? (fun p => p.1 == k) with
  | none => rfl
  | some p =>
    have hp : p ∈ d := List.mem_of_find?_eq_some hf
    have : dictGet d k 0 = p.2 := by simp [dictGet, hf]
    exact absurd (by omega : p.2 = 0) (hd p hp)

/-- Popping a freshly appended key from a dict that did not hold it. -/
theorem dictPop_dictSet_absent (d : List (String × Nat)) (k : String) (v : Nat)
    (h : d.find? (fun p => p.1 == k) = none) :
    dictPop (dictSet d k v) k = d := by
  induction d with
  | nil => simp [dictSet, dictPop]
  | cons p rest ih =>
    rw [List.find?_cons] at h
    by_cases hk : p.1 == k
    · simp only [hk] at h
      exact absurd h (by simp)
    · simp only [Bool.not_eq_true] at hk
      simp only [hk] at h
      simp [dictSet, dictPop, hk, ih h]

/-- Rewriting a present key with its current value is the identity. -/
theorem dictSet_dictGet_self (d : List (String × Nat)) (k : String) (p0 : String × Nat)
    (h : d.find? (fun p => p.1 == k) = some p0) :
    dictSet d k p0.2 = d := by
  induction d with
  | nil => simp [List.find?] at h
  | cons p rest ih =>
    rw [List.find?_cons] at h
    by_cases hk : p.1 == k
    · simp only [hk] at h
      have hp : p = p0 := by simpa using h
      subst hp
      simp [dictSet, hk, Prod.ext_iff, (eq_of_beq hk).symm]
    · simp only [Bool.not_eq_true] at hk
      simp only [hk] at h
      simp [dictSet, hk, ih h]

/-- The repetition-dict update of `make_move` followed by the decrement /
drop of `undo_move` restores the dict, provided no stored count is zero. -/
theorem dict_roundtrip (d : List (String × Nat)) (k : String)
    (hd : ∀ p ∈ d, p.2 ≠ 0) :
    (if dictGet (dictSet d k (dictGet d k 0 + 1)) k 1 - 1 = 0 then
      dictPop (dictSet (dictSet d k (dictGet d k 0 + 1)) k
        (dictGet (dictSet d k (dictGet d k 0 + 1)) k 1 - 1)) k
     else
      dictSet (dictSet d k (dictGet d k 0 + 1)) k
        (dictGet (dictSet d k (dictGet d k 0 + 1)) k 1 - 1)) = d := by
  rw [dictGet_dictSet_self, Nat.add_sub_cancel, dictSet_dictSet]
  by_cases h0 : dictGet d k 0 = 0
  · rw [if_pos h0, h0]
    exact dictPop_dictSet_absent d k 0 (find_none_of_dictGet_zero d k hd h0)
  · rw [if_neg h0]
    cases hf : d.find? (fun p => p.1 == k) with
    | none => exact absurd (by simp [dictGet, hf]) h0
    | some p =>
      have : dictGet d k 0 = p.2 := by simp [dictGet, hf]
      rw [this]
      exact dictSet_dictGet_self d k p hf

/-- Membership in the legal-move list, by definition of the filter. -/
theorem mem_generate_legal_moves {s : GameState} {m : Move} :
    m ∈ generate_legal_moves s ↔
      m ∈ generate_pseudo_legal_moves s ∧
        ∃ s2, make_move s m = some s2
          ∧ is_in_check s2 s.side_to_move = some false := by
  rw [generate_legal_moves, List.mem_filter]
  constructor
  · rintro ⟨hp, hf⟩
    refine ⟨hp, ?_⟩
    cases hmk : make_move s m with
    | none => rw [hmk] at hf; exact absurd hf (by simp)
    | some s2 =>
      rw [hmk] at hf
      exact ⟨s2, rfl, by simpa using hf⟩
  · rintro ⟨hp, s2, hmk, hc⟩
    exact ⟨hp, by rw [hmk]; simpa using hc⟩

/-! ## Claim theorems -/

/-- C2.  Every move kept by `generate_legal_moves` applies successfully and
leaves the mover's own king located and unattacked by the opponent
(`is_in_check` returns `some false` there, i.e. the king is found and the
attack test is negative). -/
theorem legal_moves_never_leave_king_in_check (s : GameState) (m : Move)
    (hm : m ∈ generate_legal_moves s) :
    ∃ s2, make_move s m = some s2
      ∧ is_in_check s2 s.side_to_move = some false :=
  (mem_generate_legal_moves.mp hm).2

/-- Test-input helper: the board of a FEN board string (all inputs used below
parse, as witnessed by `decide`). -/
def fenBoard (s : String) : List Char := (board_from_fen s).getD []

/-- Test input: white king a1, white rook h1, black king a8. -/
def krkState : GameState :=
  mkGameState (fenBoard "k7/8/8/8/8/8/8/K6R") 'w' [] none 0 1

/-- Witness for C2: the rook lift a1a2 is legal in `krkState` and the theorem
applies to it. -/
theorem legal_moves_never_leave_king_in_check_witness :
    (⟨56, 48, none, false, false, none⟩ : Move) ∈ generate_legal_moves krkState
    ∧ ∃ s2, make_move krkState ⟨56, 48, none, false, false, none⟩ = some s2
        ∧ is_in_check s2 krkState.side_to_move = some false :=
  ⟨by decide, legal_moves_never_leave_king_in_check krkState _ (by decide)⟩

/-- C3.  At a node whose halfmove clock has reached 100 or whose current
repetition key has been seen at least three times, `alpha_beta` returns the
draw score 0 — for every depth, window, evaluator and quiescence depth,
regardless of material. -/
theorem alpha_beta_draw_zero (s : GameState)
    (h : 100 ≤ s.halfmove_clock ∨ is_draw_by_repetition s = true)
    (model : Option (GameState → ℚ)) (d : Nat) (alpha beta : Score)
    (qd : Nat) :
    alpha_beta model d s alpha beta qd = Score.fin 0 := by
  have hcond : (100 ≤ s.halfmove_clock || insufficient_material s
      || is_draw_by_repetition s) = true := by
    rcases h with h | h <;> simp [h]
  unfold alpha_beta
  rw [hcond]
  rfl

/-- Test input: an empty board with the halfmove clock at 100. -/
def fiftyState : GameState :=
  mkGameState (List.replicate 64 '.') 'w' [] none 100 1

/-- Test input: an empty-board state whose own repetition key is recorded
three times. -/
def repState : GameState :=
  let s0 := mkGameState (List.replicate 64 '.') 'w' [] none 0 1
  { s0 with repetition := dictSet s0.repetition (repetition_key s0) 3 }

/-- Witness for C3, at both triggering conditions: a position with the
halfmove clock at 100 and a position with its repetition key counted 3. -/
theorem alpha_beta_draw_zero_witness :
    (100 ≤ fiftyState.halfmove_clock
      ∧ alpha_beta none 3 fiftyState Score.negInf Score.posInf 3 = Score.fin 0)
    ∧ (is_draw_by_repetition repState = true
      ∧ alpha_beta none 2 repState Score.negInf Score.posInf 1 = Score.fin 0) :=
  ⟨⟨by decide, alpha_beta_draw_zero fiftyState (Or.inl (by decide)) none 3 _ _ 3⟩,
   ⟨by decide, alpha_beta_draw_zero repState (Or.inr (by decide)) none 2 _ _ 1⟩⟩

/-- A list of kings only, holding exactly one king of each colour, has
exactly two elements. -/
theorem all_kings_length (l : List Char)
    (h : l.all (fun p => p.toUpper = 'K') = true)
    (hK : l.count 'K' = 1) (hk : l.count 'k' = 1) : l.length = 2 := by
  have hmem : ∀ x ∈ l, x = 'K' ∨ x = 'k' := by
    intro x hx
    exact (toUpper_eq_K x).mp (by simpa using List.all_eq_true.mp h x hx)
  have hsplit := List.length_eq_countP_add_countP (fun c => c == 'K') l
  have hcK : l.countP (fun c => c == 'K') = 1 := by
    rwa [List.count] at hK
  have hck : l.countP (fun c => decide ¬((fun c => c == 'K') c = true))
      = l.countP (fun c => c == 'k') := by
    apply List.countP_congr
    intro x hx
    rcases hmem x hx with rfl | rfl <;> simp
  rw [hsplit, hcK, hck]
  rw [List.count] at hk
  omega

/-- A two-element list holding exactly one king of each colour is made of the
two kings. -/
theorem length_two_all_kings (l : List Char) (hlen : l.length = 2)
    (hK : l.count 'K' = 1) (hk : l.count 'k' = 1) :
    l.all (fun p => p.toUpper = 'K') = true := by
  match l, hlen with
  | [a, b], _ =>
    have hab : (a = 'K' ∨ a = 'k') ∧ (b = 'K' ∨ b = 'k') := by
      by_cases haK : a = 'K' <;> by_cases hbK : b = 'K'
        <;> by_cases hak : a = 'k' <;> by_cases hbk : b = 'k'
        <;> simp_all [List.count_cons]
    rcases hab with ⟨rfl | rfl, rfl | rfl⟩ <;> simp_all [List.count_cons]

/-- C8.  On a board with exactly one king per colour,
`insufficient_material` is true exactly when either only the two kings
remain, or exactly three pieces remain of which exactly one is a minor piece
(bishop or knight) of either colour — and false for every other material
configuration. -/
theorem insufficient_material_iff (s : GameState)
    (hK : s.board.count 'K' = 1) (hk : s.board.count 'k' = 1) :
    insufficient_material s = true ↔
      ((s.board.filter (fun p => p ≠ '.')).length = 2
        ∨ ((s.board.filter (fun p => p ≠ '.')).length = 3
          ∧ ((s.board.filter (fun p => p ≠ '.')).filter
              (fun p => p.toUpper = 'B' || p.toUpper = 'N')).length = 1)) := by
  have hKp : (s.board.filter (fun p => p ≠ '.')).count 'K' = 1 := by
    rw [List.count_filter (by decide)]
    exact hK
  have hkp : (s.board.filter (fun p => p ≠ '.')).count 'k' = 1 := by
    rw [List.count_filter (by decide)]
    exact hk
  simp only [insufficient_material]
  constructor
  · intro h
    split at h
    · next hall =>
      exact Or.inl (all_kings_length _ hall hKp hkp)
    · next hnall =>
      split at h
      · next h3 => exact Or.inr ⟨h3, by simpa using h⟩
      · exact absurd h (by simp)
  · rintro (h2 | ⟨h3, hminor⟩)
    · rw [if_pos (length_two_all_kings _ h2 hKp hkp)]
    · have hnall : ¬((s.board.filter (fun p => p ≠ '.')).all
          (fun p => p.toUpper = 'K') = true) := by
        intro hall
        have := all_kings_length _ hall hKp hkp
        omega
      rw [if_neg hnall, if_pos h3]
      simpa using hminor

/-- Test input: white king, white bishop, black king. -/
def kbkState : GameState :=
  mkGameState (fenBoard "k7/8/8/8/8/8/8/KB6") 'w' [] none 0 1

/-- Test input: white king with two knights versus black king. -/
def knnkState : GameState :=
  mkGameState (fenBoard "k7/8/8/8/8/8/8/KNN5") 'w' [] none 0 1

/-- Witness for C8: at K+B vs K the predicate and the characterisation are
both true; at K+N+N vs K the characterisation is falsified concretely, hence
by the theorem the predicate is false there too. -/
theorem insufficient_material_iff_witness :
    (insufficient_material kbkState = true
      ∧ kbkState.board.count 'K' = 1 ∧ kbkState.board.count 'k' = 1)
    ∧ insufficient_material knnkState = false :=
  ⟨⟨(insufficient_material_iff kbkState (by decide) (by decide)).mpr
      (Or.inr (by decide)), by decide, by decide⟩,
   by
    have h := insufficient_material_iff knnkState (by decide) (by decide)
    revert h
    decide⟩

/-! ## Structure of generated moves -/

/-- The data-model invariant on the en-passant field (spec section 3: the
target is set only the ply after a double pawn push, hence the jumped-over
square is empty). -/
def EpOk (s : GameState) : Prop :=
  ∀ t, s.en_passant = some t → boardGet s.board t = '.'

/-- Everything `make_move`/`undo_move` and the claims need to know about a
move emitted by `generate_pseudo_legal_moves`. -/
structure GenOk (s : GameState) (m : Move) : Prop where
  from_lt : m.from_square < 64
  to_lt : m.to_square < 64
  ne : m.from_square ≠ m.to_square
  occ : piece_color (boardGet s.board m.from_square) = some s.side_to_move
  no_self : piece_color (boardGet s.board m.to_square) ≠ some s.side_to_move
  ep_empty : m.is_en_passant = true → boardGet s.board m.to_square = '.'
  ep_cap : m.is_en_passant = true →
    ep_cap_sq s.side_to_move m.to_square < 64
      ∧ ep_cap_sq s.side_to_move m.to_square ≠ m.from_square
      ∧ ep_cap_sq s.side_to_move m.to_square ≠ m.to_square
  castle_ok : m.is_castle = true →
    ∃ rf rt, rook_squares m.to_square = some (rf, rt)
      ∧ boardGet s.board rt = '.'
      ∧ rf < 64 ∧ rt < 64
      ∧ rf ≠ m.from_square ∧ rf ≠ m.to_square
      ∧ rt ≠ m.from_square ∧ rt ≠ m.to_square ∧ rf ≠ rt
  pawn_sixteen : (boardGet s.board m.from_square).toUpper = 'P' →
    ((m.to_square : Int) - (m.from_square : Int)).natAbs = 16 →
    ((s.side_to_move = 'w' ∧ m.from_square / 8 = 6
        ∧ m.to_square + 16 = m.from_square)
      ∨ (s.side_to_move = 'b' ∧ m.from_square / 8 = 1
        ∧ m.to_square = m.from_square + 16))
  not_both : ¬(m.is_en_passant = true ∧ m.is_castle = true)

/-- A colour returned by `piece_color` is one of `'w'`, `'b'`, and the cell
is occupied. -/
theorem piece_color_cases {p c : Char} (h : piece_color p = some c) :
    (c = 'w' ∨ c = 'b') ∧ p ≠ '.' := by
  unfold piece_color at h
  by_cases hp : p = '.'
  · rw [if_pos hp] at h; cases h
  · rw [if_neg hp] at h
    by_cases hu : p.isUpper
    · rw [if_pos hu] at h
      exact ⟨Or.inl (Option.some_injective _ h).symm, hp⟩
    · rw [if_neg hu] at h
      exact ⟨Or.inr (Option.some_injective _ h).symm, hp⟩

/-- The enemy colour differs from the side to move whenever the side to move
is a real colour. -/
theorem enemy_ne_side {side : Char} (h : side = 'w' ∨ side = 'b') :
    (if side = 'w' then 'b' else 'w') ≠ side := by
  rcases h with rfl | rfl <;> decide

/-- Membership in a conditional list with empty alternative. -/
theorem mem_ite_nil {α : Type} {c : Prop} [Decidable c] {l : List α} {x : α}
    (h : x ∈ if c then l else []) : c ∧ x ∈ l := by
  split at h
  · exact ⟨by assumption, h⟩
  · exact absurd h (List.not_mem_nil x)

/-- The bounds packed in a successful `onb` test. -/
theorem onb_facts {r c : Int} (h : onb r c = true) :
    0 ≤ r ∧ r < 8 ∧ 0 ≤ c ∧ c < 8 := by
  simp only [onb, Bool.and_eq_true, decide_eq_true_eq] at h
  exact ⟨h.1.1.1, h.1.1.2, h.1.2, h.2⟩

/-- Shape of the four promotion pushes. -/
theorem promo_pushes_shape {idx dest : Nat} {m : Move}
    (h : m ∈ promo_pushes idx dest) :
    m.from_square = idx ∧ m.to_square = dest ∧ m.is_castle = false
      ∧ m.is_en_passant = false := by
  simp only [promo_pushes, List.mem_cons, List.not_mem_nil, or_false] at h
  rcases h with rfl | rfl | rfl | rfl <;> exact ⟨rfl, rfl, rfl, rfl⟩

/-- Shape of the four promotion captures. -/
theorem promo_captures_shape {idx dest : Nat} {tp : Char} {m : Move}
    (h : m ∈ promo_captures idx dest tp) :
    m.from_square = idx ∧ m.to_square = dest ∧ m.is_castle = false
      ∧ m.is_en_passant = false := by
  simp only [promo_captures, List.mem_cons, List.not_mem_nil, or_false] at h
  rcases h with rfl | rfl | rfl | rfl <;> exact ⟨rfl, rfl, rfl, rfl⟩

/-- Builder for `GenOk` at a move that is neither a castle nor en passant. -/
theorem genOk_of_fields {s : GameState} {m : Move}
    (hcs : m.is_castle = false) (hef : m.is_en_passant = false)
    (hf : m.from_square < 64) (ht : m.to_square < 64)
    (hne : m.from_square ≠ m.to_square)
    (hocc : piece_color (boardGet s.board m.from_square) = some s.side_to_move)
    (hns : piece_color (boardGet s.board m.to_square) ≠ some s.side_to_move)
    (hp16 : (boardGet s.board m.from_square).toUpper = 'P' →
      ((m.to_square : Int) - (m.from_square : Int)).natAbs = 16 →
      ((s.side_to_move = 'w' ∧ m.from_square / 8 = 6
          ∧ m.to_square + 16 = m.from_square)
        ∨ (s.side_to_move = 'b' ∧ m.from_square / 8 = 1
          ∧ m.to_square = m.from_square + 16))) : GenOk s m :=
  ⟨hf, ht, hne, hocc, hns,
   fun h => absurd h (by simp [hef]),
   fun h => absurd h (by simp [hef]),
   fun h => absurd h (by simp [hcs]),
   hp16,
   fun h => absurd h.2 (by simp [hcs])⟩

/-- Every move the pawn block emits satisfies `GenOk`. -/
theorem pawn_moves_ok {s : GameState} {idx : Nat} {m : Move}
    (hidx : idx < 64)
    (hpc : piece_color (boardGet s.board idx) = some s.side_to_move)
    (hep : EpOk s)
    (hm : m ∈ pawn_moves s idx) : GenOk s m := by
  have hside := (piece_color_cases hpc).1
  rcases hside with hw | hb
  · -- white pawn
    simp only [pawn_moves, hw, Char.reduceEq, reduceIte] at hm
    rcases List.mem_append.mp hm with hm | hm
    · -- pushes
      rcases mem_ite_nil hm with ⟨honb, hm⟩
      obtain ⟨hr0, hr8, hc0, hc8⟩ := onb_facts honb
      rcases mem_ite_nil hm with ⟨hempty, hm⟩
      rcases List.mem_append.mp hm with hm | hm
      · -- single push, possibly promoting
        have hfields : m.from_square = idx
            ∧ m.to_square = (((idx : Int) / 8 + -1) * 8 + (idx : Int) % 8).toNat
            ∧ m.is_castle = false ∧ m.is_en_passant = false := by
          split at hm
          · exact promo_pushes_shape hm
          · simp only [List.mem_singleton] at hm
            subst hm
            exact ⟨rfl, rfl, rfl, rfl⟩
        obtain ⟨hf, ht, hcs, hef⟩ := hfields
        refine genOk_of_fields hcs hef (by omega) (by omega) (by omega)
          (by rwa [hf]) ?_ ?_
        · rw [ht, hempty]
          simp [piece_color]
        · intro _ habs
          exfalso
          rw [ht, hf] at habs
          omega
      · -- double push
        rcases mem_ite_nil hm with ⟨hstart, hm⟩
        rcases mem_ite_nil hm with ⟨hempty2, hm⟩
        simp only [List.mem_singleton] at hm
        have hf : m.from_square = idx := by rw [hm]
        have ht : m.to_square
            = (((idx : Int) / 8 + 2 * -1) * 8 + (idx : Int) % 8).toNat := by
          rw [hm]
        have hcs : m.is_castle = false := by rw [hm]
        have hef : m.is_en_passant = false := by rw [hm]
        refine genOk_of_fields hcs hef (by omega) (by omega) (by omega)
          (by rwa [hf]) ?_ ?_
        · rw [ht, hempty2]
          simp [piece_color]
        · intro _ _
          exact Or.inl ⟨hw, by omega, by omega⟩
    · -- captures and en passant
      simp only [List.mem_flatMap] at hm
      obtain ⟨dc, hdc, hm⟩ := hm
      have hdc2 : dc = -1 ∨ dc = 1 := by simpa using hdc
      rcases mem_ite_nil hm with ⟨honb, hm⟩
      obtain ⟨hr0, hr8, hc0, hc8⟩ := onb_facts honb
      rcases List.mem_append.mp hm with hm | hm
      · -- capture, possibly promoting
        rcases mem_ite_nil hm with ⟨htgt, hm⟩
        simp only [Bool.and_eq_true, decide_eq_true_eq] at htgt
        have hfields : m.from_square = idx
            ∧ m.to_square = (((idx : Int) / 8 + -1) * 8
                + ((idx : Int) % 8 + dc)).toNat
            ∧ m.is_castle = false ∧ m.is_en_passant = false := by
          split at hm
          · exact promo_captures_shape hm
          · simp only [List.mem_singleton] at hm
            subst hm
            exact ⟨rfl, rfl, rfl, rfl⟩
        obtain ⟨hf, ht, hcs, hef⟩ := hfields
        refine genOk_of_fields hcs hef (by omega) (by omega) (by omega)
          (by rwa [hf]) ?_ ?_
        · rw [ht, htgt.2, hw]
          decide
        · intro _ habs
          exfalso
          rw [ht, hf] at habs
          rcases hdc2 with rfl | rfl <;> omega
      · -- en passant
        rcases mem_ite_nil hm with ⟨hept, hm⟩
        simp only [List.mem_singleton] at hm
        have hf : m.from_square = idx := by rw [hm]
        have ht : m.to_square
            = (((idx : Int) / 8 + -1) * 8 + ((idx : Int) % 8 + dc)).toNat := by
          rw [hm]
        have hcs : m.is_castle = false := by rw [hm]
        have hef : m.is_en_passant = true := by rw [hm]
        have hepe := hep _ hept
        refine ⟨by omega, by omega, by omega, by rwa [hf], ?_, ?_, ?_, ?_, ?_,
          by intro h; simp [hcs, hef] at h⟩
        · rw [ht, hepe]
          simp [piece_color]
        · intro _
          rw [ht]
          exact hepe
        · intro _
          rw [hw, ht]
          unfold ep_cap_sq
          simp only [Char.reduceEq, reduceIte]
          refine ⟨by omega, by omega, by rcases hdc2 with rfl | rfl <;> omega⟩
        · intro h
          rw [hcs] at h
          cases h
        · intro _ habs
          exfalso
          rcases hdc2 with rfl | rfl <;> omega
  · -- black pawn
    have hbw : s.side_to_move ≠ 'w' := by rw [hb]; decide
    simp only [pawn_moves, hb, Char.reduceEq, reduceIte] at hm
    rcases List.mem_append.mp hm with hm | hm
    · -- pushes
      rcases mem_ite_nil hm with ⟨honb, hm⟩
      obtain ⟨hr0, hr8, hc0, hc8⟩ := onb_facts honb
      rcases mem_ite_nil hm with ⟨hempty, hm⟩
      rcases List.mem_append.mp hm with hm | hm
      · -- single push, possibly promoting
        have hfields : m.from_square = idx
            ∧ m.to_square = (((idx : Int) / 8 + 1) * 8 + (idx : Int) % 8).toNat
            ∧ m.is_castle = false ∧ m.is_en_passant = false := by
          split at hm
          · exact promo_pushes_shape hm
          · simp only [List.mem_singleton] at hm
            subst hm
            exact ⟨rfl, rfl, rfl, rfl⟩
        obtain ⟨hf, ht, hcs, hef⟩ := hfields
        refine genOk_of_fields hcs hef (by omega) (by omega) (by omega)
          (by rwa [hf]) ?_ ?_
        · rw [ht, hempty]
          simp [piece_color]
        · intro _ habs
          exfalso
          rw [ht, hf] at habs
          omega
      · -- double push
        rcases mem_ite_nil hm with ⟨hstart, hm⟩
        rcases mem_ite_nil hm with ⟨hempty2, hm⟩
        simp only [List.mem_singleton] at hm
        have hf : m.from_square = idx := by rw [hm]
        have ht : m.to_square
            = (((idx : Int) / 8 + 2 * 1) * 8 + (idx : Int) % 8).toNat := by
          rw [hm]
        have hcs : m.is_castle = false := by rw [hm]
        have hef : m.is_en_passant = false := by rw [hm]
        refine genOk_of_fields hcs hef (by omega) (by omega) (by omega)
          (by rwa [hf]) ?_ ?_
        · rw [ht, hempty2]
          simp [piece_color]
        · intro _ _
          exact Or.inr ⟨hb, by omega, by omega⟩
    · -- captures and en passant
      simp only [List.mem_flatMap] at hm
      obtain ⟨dc, hdc, hm⟩ := hm
      have hdc2 : dc = -1 ∨ dc = 1 := by simpa using hdc
      rcases mem_ite_nil hm with ⟨honb, hm⟩
      obtain ⟨hr0, hr8, hc0, hc8⟩ := onb_facts honb
      rcases List.mem_append.mp hm with hm | hm
      · -- capture, possibly promoting
        rcases mem_ite_nil hm with ⟨htgt, hm⟩
        simp only [Bool.and_eq_true, decide_eq_true_eq] at htgt
        have hfields : m.from_square = idx
            ∧ m.to_square = (((idx : Int) / 8 + 1) * 8
                + ((idx : Int) % 8 + dc)).toNat
            ∧ m.is_castle = false ∧ m.is_en_passant = false := by
          split at hm
          · exact promo_captures_shape hm
          · simp only [List.mem_singleton] at hm
            subst hm
            exact ⟨rfl, rfl, rfl, rfl⟩
        obtain ⟨hf, ht, hcs, hef⟩ := hfields
        refine genOk_of_fields hcs hef (by omega) (by omega) (by omega)
          (by rwa [hf]) ?_ ?_
        · rw [ht, htgt.2, hb]
          decide
        · intro _ habs
          exfalso
          rw [ht, hf] at habs
          rcases hdc2 with rfl | rfl <;> omega
      · -- en passant
        rcases mem_ite_nil hm with ⟨hept, hm⟩
        simp only [List.mem_singleton] at hm
        have hf : m.from_square = idx := by rw [hm]
        have ht : m.to_square
            = (((idx : Int) / 8 + 1) * 8 + ((idx : Int) % 8 + dc)).toNat := by
          rw [hm]
        have hcs : m.is_castle = false := by rw [hm]
        have hef : m.is_en_passant = true := by rw [hm]
        have hepe := hep _ hept
        refine ⟨by omega, by omega, by omega, by rwa [hf], ?_, ?_, ?_, ?_, ?_,
          by intro h; simp [hcs, hef] at h⟩
        · rw [ht, hepe]
          simp [piece_color]
        · intro _
          rw [ht]
          exact hepe
        · intro _
          rw [hb, ht]
          unfold ep_cap_sq
          simp only [Char.reduceEq, reduceIte]
          refine ⟨by omega, by omega, by rcases hdc2 with rfl | rfl <;> omega⟩
        · intro h
          rw [hcs] at h
          cases h
        · intro _ habs
          exfalso
          rcases hdc2 with rfl | rfl <;> omega

/-- Every move the knight/king offset block emits satisfies `GenOk`. -/
theorem step_moves_ok {s : GameState} {idx : Nat} {steps : List (Int × Int)}
    {m : Move} (hidx : idx < 64)
    (hpc : piece_color (boardGet s.board idx) = some s.side_to_move)
    (hnotP : (boardGet s.board idx).toUpper ≠ 'P')
    (hz : ∀ d ∈ steps, ¬(d.1 = 0 ∧ d.2 = 0))
    (hm : m ∈ step_moves s idx steps) : GenOk s m := by
  have hside := (piece_color_cases hpc).1
  simp only [step_moves, List.mem_flatMap] at hm
  obtain ⟨d, hd, hm⟩ := hm
  have hdz : d.1 ≠ 0 ∨ d.2 ≠ 0 := by
    have := hz d hd
    tauto
  rcases mem_ite_nil hm with ⟨honb, hm⟩
  obtain ⟨hr0, hr8, hc0, hc8⟩ := onb_facts honb
  have hbuild : ∀ cap,
      m = (⟨idx, (((idx : Int) / 8 + d.1) * 8 + ((idx : Int) % 8 + d.2)).toNat,
        none, false, false, cap⟩ : Move) →
      piece_color (boardGet s.board
          ((((idx : Int) / 8 + d.1) * 8 + ((idx : Int) % 8 + d.2)).toNat))
        ≠ some s.side_to_move →
      GenOk s m := by
    intro cap hmeq hns
    have hf : m.from_square = idx := by rw [hmeq]
    have ht : m.to_square
        = (((idx : Int) / 8 + d.1) * 8 + ((idx : Int) % 8 + d.2)).toNat := by
      rw [hmeq]
    have hcs : m.is_castle = false := by rw [hmeq]
    have hef : m.is_en_passant = false := by rw [hmeq]
    refine genOk_of_fields hcs hef (by omega) (by omega) (by omega)
      (by rwa [hf]) (by rwa [ht]) ?_
    intro hup
    exact absurd (by rwa [hf] at hup) hnotP
  split at hm
  · next htp =>
    simp only [List.mem_singleton] at hm
    refine hbuild none hm ?_
    rw [htp]
    simp [piece_color]
  · by_cases hcol : piece_color (boardGet s.board
        ((((idx : Int) / 8 + d.1) * 8 + ((idx : Int) % 8 + d.2)).toNat))
        = some (if s.side_to_move = 'w' then 'b' else 'w')
    · rw [if_pos hcol] at hm
      simp only [List.mem_singleton] at hm
      refine hbuild (some _) hm ?_
      rw [hcol]
      intro hcontra
      exact enemy_ne_side hside (Option.some_injective _ hcontra)
    · rw [if_neg hcol] at hm
      exact absurd hm (List.not_mem_nil m)

/-- Every move a sliding ray emits satisfies `GenOk`; the invariant carries
the sign relation between the walked coordinates and the origin square. -/
theorem slide_ray_ok {s : GameState} {idx : Nat} {m : Move} {dr dc : Int}
    (hidx : idx < 64)
    (hpc : piece_color (boardGet s.board idx) = some s.side_to_move)
    (hnotP : (boardGet s.board idx).toUpper ≠ 'P')
    (hdz : dr ≠ 0 ∨ dc ≠ 0) :
    ∀ (fuel : Nat) (r c : Int),
      ((0 < dr → (idx : Int) / 8 < r) ∧ (dr < 0 → r < (idx : Int) / 8)
        ∧ (dr = 0 → r = (idx : Int) / 8)) →
      ((0 < dc → (idx : Int) % 8 < c) ∧ (dc < 0 → c < (idx : Int) % 8)
        ∧ (dc = 0 → c = (idx : Int) % 8)) →
      m ∈ slide_ray s.board idx (if s.side_to_move = 'w' then 'b' else 'w')
        r c dr dc fuel →
      GenOk s m := by
  have hside := (piece_color_cases hpc).1
  intro fuel
  induction fuel with
  | zero =>
    intro r c _ _ hm
    exact absurd hm (List.not_mem_nil m)
  | succ fuel ih =>
    intro r c hrInv hcInv hm
    simp only [slide_ray] at hm
    rcases mem_ite_nil hm with ⟨honb, hm⟩
    obtain ⟨hr0, hr8, hc0, hc8⟩ := onb_facts honb
    have hbuild : ∀ cap, m = (⟨idx, (r * 8 + c).toNat, none, false, false,
        cap⟩ : Move) → piece_color (boardGet s.board (r * 8 + c).toNat)
          ≠ some s.side_to_move → GenOk s m := by
      intro cap hmeq hns
      have hf : m.from_square = idx := by rw [hmeq]
      have ht : m.to_square = (r * 8 + c).toNat := by rw [hmeq]
      have hcs : m.is_castle = false := by rw [hmeq]
      have hef : m.is_en_passant = false := by rw [hmeq]
      refine genOk_of_fields hcs hef (by omega) (by omega) (by omega)
        (by rwa [hf]) (by rwa [ht]) ?_
      intro hup
      exact absurd (by rwa [hf] at hup) hnotP
    split at hm
    · next htp =>
      rcases List.mem_cons.mp hm with hmeq | hm
      · refine hbuild none hmeq ?_
        rw [htp]
        simp [piece_color]
      · exact ih (r + dr) (c + dc)
          ⟨by intro h; have := hrInv.1 h; omega,
           by intro h; have := hrInv.2.1 h; omega,
           by intro h; have := hrInv.2.2 h; omega⟩
          ⟨by intro h; have := hcInv.1 h; omega,
           by intro h; have := hcInv.2.1 h; omega,
           by intro h; have := hcInv.2.2 h; omega⟩ hm
    · by_cases hcol : piece_color (boardGet s.board (r * 8 + c).toNat)
          = some (if s.side_to_move = 'w' then 'b' else 'w')
      · rw [if_pos hcol] at hm
        simp only [List.mem_singleton] at hm
        refine hbuild (some _) hm ?_
        rw [hcol]
        intro hcontra
        exact enemy_ne_side hside (Option.some_injective _ hcontra)
      · rw [if_neg hcol] at hm
        exact absurd hm (List.not_mem_nil m)

/-- Every move the sliding block emits satisfies `GenOk`. -/
theorem slide_moves_ok {s : GameState} {idx : Nat} {dirs : List (Int × Int)}
    {m : Move} (hidx : idx < 64)
    (hpc : piece_color (boardGet s.board idx) = some s.side_to_move)
    (hnotP : (boardGet s.board idx).toUpper ≠ 'P')
    (hz : ∀ d ∈ dirs, ¬(d.1 = 0 ∧ d.2 = 0))
    (hm : m ∈ slide_moves s idx dirs) : GenOk s m := by
  simp only [slide_moves, List.mem_flatMap] at hm
  obtain ⟨d, hd, hm⟩ := hm
  have hdz : d.1 ≠ 0 ∨ d.2 ≠ 0 := by
    have := hz d hd
    tauto
  exact slide_ray_ok hidx hpc hnotP hdz 8 _ _
    ⟨by intro h; omega, by intro h; omega, by intro h; omega⟩
    ⟨by intro h; omega, by intro h; omega, by intro h; omega⟩ hm

/-- Every move the castling section emits satisfies `GenOk`. -/
theorem castle_moves_ok {s : GameState} {idx : Nat} {m : Move}
    (hpc : piece_color (boardGet s.board idx) = some s.side_to_move)
    (hnotP : (boardGet s.board idx).toUpper ≠ 'P')
    (hm : m ∈ castle_moves s idx) : GenOk s m := by
  simp only [castle_moves] at hm
  split at hm
  · next hwc =>
    simp only [Bool.and_eq_true, decide_eq_true_eq] at hwc
    obtain ⟨⟨hw, hrow⟩, hcol⟩ := hwc
    have hidx : idx = 60 := by omega
    subst hidx
    rcases List.mem_append.mp hm with hm | hm
    · rcases mem_ite_nil hm with ⟨hg, hm⟩
      simp only [Bool.and_eq_true, decide_eq_true_eq] at hg
      simp only [List.mem_singleton] at hm
      have hf : m.from_square = 60 := by rw [hm]
      have ht : m.to_square = sqIx "g1" := by rw [hm]
      have hcs : m.is_castle = true := by rw [hm]
      have hef : m.is_en_passant = false := by rw [hm]
      have hts : m.to_square = 62 := by rw [ht]; rfl
      refine ⟨by omega, by omega, by omega, by rwa [hf], ?_, ?_, ?_, ?_, ?_,
          by intro h; simp [hcs, hef] at h⟩
      · rw [hts]
        have : boardGet s.board (sqIx "g1") = '.' := hg.1.1.1.2
        rw [show (62 : Nat) = sqIx "g1" from rfl, this]
        simp [piece_color]
      · intro h; rw [hef] at h; cases h
      · intro h; rw [hef] at h; cases h
      · intro _
        refine ⟨63, 61, ?_, ?_, by omega, by omega, by omega, by omega,
          by omega, by omega, by omega⟩
        · rw [hts]; rfl
        · exact hg.1.1.1.1.2
      · intro _ habs
        rw [hts, hf] at habs
        omega
    · rcases mem_ite_nil hm with ⟨hq, hm⟩
      simp only [Bool.and_eq_true, decide_eq_true_eq] at hq
      simp only [List.mem_singleton] at hm
      have hf : m.from_square = 60 := by rw [hm]
      have ht : m.to_square = sqIx "c1" := by rw [hm]
      have hcs : m.is_castle = true := by rw [hm]
      have hef : m.is_en_passant = false := by rw [hm]
      have hts : m.to_square = 58 := by rw [ht]; rfl
      refine ⟨by omega, by omega, by omega, by rwa [hf], ?_, ?_, ?_, ?_, ?_,
          by intro h; simp [hcs, hef] at h⟩
      · rw [hts]
        have : boardGet s.board (sqIx "c1") = '.' := hq.1.1.1.1.2
        rw [show (58 : Nat) = sqIx "c1" from rfl, this]
        simp [piece_color]
      · intro h; rw [hef] at h; cases h
      · intro h; rw [hef] at h; cases h
      · intro _
        refine ⟨56, 59, ?_, ?_, by omega, by omega, by omega, by omega,
          by omega, by omega, by omega⟩
        · rw [hts]; rfl
        · exact hq.1.1.1.2
      · intro _ habs
        rw [hts, hf] at habs
        omega
  · split at hm
    · next hbc =>
      simp only [Bool.and_eq_true, decide_eq_true_eq] at hbc
      obtain ⟨⟨hb, hrow⟩, hcol⟩ := hbc
      have hidx : idx = 4 := by omega
      subst hidx
      rcases List.mem_append.mp hm with hm | hm
      · rcases mem_ite_nil hm with ⟨hg, hm⟩
        simp only [Bool.and_eq_true, decide_eq_true_eq] at hg
        simp only [List.mem_singleton] at hm
        have hf : m.from_square = 4 := by rw [hm]
        have ht : m.to_square = sqIx "g8" := by rw [hm]
        have hcs : m.is_castle = true := by rw [hm]
        have hef : m.is_en_passant = false := by rw [hm]
        have hts : m.to_square = 6 := by rw [ht]; rfl
        refine ⟨by omega, by omega, by omega, by rwa [hf], ?_, ?_, ?_, ?_, ?_,
          by intro h; simp [hcs, hef] at h⟩
        · rw [hts]
          have : boardGet s.board (sqIx "g8") = '.' := hg.1.1.1.2
          rw [show (6 : Nat) = sqIx "g8" from rfl, this]
          simp [piece_color]
        · intro h; rw [hef] at h; cases h
        · intro h; rw [hef] at h; cases h
        · intro _
          refine ⟨7, 5, ?_, ?_, by omega, by omega, by omega, by omega,
            by omega, by omega, by omega⟩
          · rw [hts]; rfl
          · exact hg.1.1.1.1.2
        · intro _ habs
          rw [hts, hf] at habs
          omega
      · rcases mem_ite_nil hm with ⟨hq, hm⟩
        simp only [Bool.and_eq_true, decide_eq_true_eq] at hq
        simp only [List.mem_singleton] at hm
        have hf : m.from_square = 4 := by rw [hm]
        have ht : m.to_square = sqIx "c8" := by rw [hm]
        have hcs : m.is_castle = true := by rw [hm]
        have hef : m.is_en_passant = false := by rw [hm]
        have hts : m.to_square = 2 := by rw [ht]; rfl
        refine ⟨by omega, by omega, by omega, by rwa [hf], ?_, ?_, ?_, ?_, ?_,
          by intro h; simp [hcs, hef] at h⟩
        · rw [hts]
          have : boardGet s.board (sqIx "c8") = '.' := hq.1.1.1.1.2
          rw [show (2 : Nat) = sqIx "c8" from rfl, this]
          simp [piece_color]
        · intro h; rw [hef] at h; cases h
        · intro h; rw [hef] at h; cases h
        · intro _
          refine ⟨0, 3, ?_, ?_, by omega, by omega, by omega, by omega,
            by omega, by omega, by omega⟩
          · rw [hts]; rfl
          · exact hq.1.1.1.2
        · intro _ habs
          rw [hts, hf] at habs
          omega
    · exact absurd hm (List.not_mem_nil m)

/-- Restating `boardGet` as the checked indexing used by `List.enum`. -/
theorem boardGet_eq_getElem {b : List Char} {i : Nat} (h : i < b.length) :
    boardGet b i = b[i] := by
  simp [boardGet, List.getD_eq_getElem?_getD, List.getElem?_eq_getElem h]

/-- Every pseudo-legal move satisfies `GenOk` (on a 64-cell board whose
en-passant target, if set, is an empty square). -/
theorem genOk_of_mem {s : GameState} {m : Move}
    (hb : s.board.length = 64) (hep : EpOk s)
    (hm : m ∈ generate_pseudo_legal_moves s) : GenOk s m := by
  unfold generate_pseudo_legal_moves at hm
  rw [List.mem_flatMap] at hm
  obtain ⟨⟨idx, piece⟩, hpe, hm⟩ := hm
  obtain ⟨hlt, hpiece⟩ := List.mem_enum hpe
  have hidx : idx < 64 := by omega
  have hbg : boardGet s.board idx = piece := by
    rw [boardGet_eq_getElem hlt, hpiece]
  split at hm
  · exact absurd hm (List.not_mem_nil m)
  · next hcond =>
    simp only [Bool.or_eq_true, decide_eq_true_eq, not_or, not_not] at hcond
    obtain ⟨hdot, hcol⟩ := hcond
    have hpc : piece_color (boardGet s.board idx) = some s.side_to_move := by
      rw [hbg]
      exact hcol
    simp only [piece_moves_at] at hm
    split at hm
    · next hP => exact pawn_moves_ok hidx hpc hep hm
    · next hnP =>
      have hnotP : (boardGet s.board idx).toUpper ≠ 'P' := by
        rwa [hbg]
      split at hm
      · exact step_moves_ok hidx hpc hnotP (by decide) hm
      · split at hm
        · refine slide_moves_ok hidx hpc hnotP ?_ hm
          intro d hd
          rcases List.mem_append.mp hd with hd | hd
          · rcases mem_ite_nil hd with ⟨_, hd⟩
            exact (show ∀ d ∈ diag_dirs, ¬(d.1 = 0 ∧ d.2 = 0) by decide) d hd
          · rcases mem_ite_nil hd with ⟨_, hd⟩
            exact (show ∀ d ∈ ortho_dirs, ¬(d.1 = 0 ∧ d.2 = 0) by decide) d hd
        · split at hm
          · rcases List.mem_append.mp hm with hm | hm
            · exact step_moves_ok hidx hpc hnotP (by decide) hm
            · exact castle_moves_ok hpc hnotP hm
          · exact absurd hm (List.not_mem_nil m)

/-! ## The make/undo roundtrip -/

/-- Board roundtrip for an ordinary move: clear the source, write the
destination, then restore both. -/
theorem board_undo_normal (sb : List Char) (f t : Nat) (placed moved c : Char)
    (hne : f ≠ t) (hmv : moved = boardGet sb f) (hc : c = boardGet sb t) :
    (((sb.set f '.').set t placed).set f moved).set t c = sb := by
  rw [List.set_comm placed moved (sb.set f '.') (Ne.symm hne), List.set_set,
    List.set_set, set_of_boardGet_eq sb f moved hmv.symm,
    set_of_boardGet_eq sb t c hc.symm]

/-- Board roundtrip for an en-passant capture: additionally clear and restore
the victim square behind the (empty) target square. -/
theorem board_undo_ep (sb : List Char) (f t e : Nat) (placed moved : Char)
    (hft : f ≠ t) (hef : e ≠ f) (het : e ≠ t)
    (hmv : moved = boardGet sb f) (htE : boardGet sb t = '.') :
    ((((((sb.set e '.').set f '.').set t placed).set f moved).set t
        (boardGet sb e)).set t '.').set e (boardGet sb e) = sb := by
  have h1 : boardGet (sb.set e '.') f = moved := by
    rw [boardGet_set_ne sb hef, hmv]
  have h2 : boardGet (sb.set e '.') t = '.' := by
    rw [boardGet_set_ne sb het, htE]
  rw [List.set_set,
    List.set_comm placed moved ((sb.set e '.').set f '.') (Ne.symm hft),
    List.set_set, List.set_set, set_of_boardGet_eq _ f moved h1,
    set_of_boardGet_eq _ t '.' h2, List.set_set,
    set_of_boardGet_eq sb e _ rfl]

/-- Board roundtrip for a castle: also displace and restore the rook between
`rf` and the (empty) square `rt`. -/
theorem board_undo_castle (sb : List Char) (f t rf rt : Nat)
    (placed moved c rook : Char)
    (hft : f ≠ t) (hrff : rf ≠ f) (hrft : rf ≠ t) (hrtf : rt ≠ f)
    (hrtt : rt ≠ t) (hfr : rf ≠ rt)
    (hmv : moved = boardGet sb f) (hc : c = boardGet sb t)
    (hrook : rook = boardGet sb rf) (hrtE : boardGet sb rt = '.') :
    ((((((((sb.set f '.').set t placed).set rf '.').set rt rook).set f
        moved).set t c).set rf rook).set rt '.') = sb := by
  rw [List.set_comm rook moved _ hrtf,
    List.set_comm ('.' : Char) moved _ hrff,
    List.set_comm placed moved (sb.set f '.') (Ne.symm hft), List.set_set,
    set_of_boardGet_eq sb f moved hmv.symm]
  rw [List.set_comm rook c _ hrtt,
    List.set_comm ('.' : Char) c _ hrft, List.set_set,
    set_of_boardGet_eq sb t c hc.symm]
  rw [List.set_comm rook rook _ (Ne.symm hfr), List.set_set, List.set_set,
    set_of_boardGet_eq sb rf rook hrook.symm,
    set_of_boardGet_eq sb rt '.' hrtE]

/-- Applying any pseudo-legal-shaped move (`GenOk`) and undoing restores the
state exactly: board, side to move, castling rights, en-passant target, both
clocks, history and repetition table (counts included). -/
theorem make_undo_of_genOk {s : GameState} {m : Move}
    (hrep : ∀ p ∈ s.repetition, p.2 ≠ 0) (hok : GenOk s m) :
    ∃ s2, make_move s m = some s2 ∧ undo_move s2 = s := by
  have hmoved : boardGet s.board m.from_square ≠ '.' :=
    (piece_color_cases hok.occ).2
  simp only [make_move, if_neg hmoved]
  refine ⟨_, rfl, ?_⟩
  simp only [undo_move]
  obtain ⟨sb, sside, scast, sep, shm, sfm, shist, srep⟩ := s
  simp only [GameState.mk.injEq]
  refine ⟨?_, trivial, trivial, trivial, trivial, trivial, trivial, ?_⟩
  · -- board restoration
    have hcval : ((if boardGet sb m.to_square ≠ '.' then
        some (boardGet sb m.to_square) else none).getD '.')
        = boardGet sb m.to_square := by
      by_cases h : boardGet sb m.to_square = '.' <;> simp [h]
    cases hepf : m.is_en_passant with
    | true =>
      have hcsf : m.is_castle = false := by
        cases hcsv : m.is_castle with
        | false => rfl
        | true => exact absurd ⟨hepf, hcsv⟩ hok.not_both
      obtain ⟨hcap_lt, hcap_f, hcap_t⟩ := hok.ep_cap hepf
      have htE := hok.ep_empty hepf
      cases hpr : m.promotion with
      | none =>
        simp only [hepf, hcsf, hpr, reduceIte, Bool.false_eq_true, eq_self_iff_true, ite_true, ite_false,
          Option.getD_some, Option.isSome_none, Option.isSome_some,
          Option.map_some']
        exact board_undo_ep sb m.from_square m.to_square
          (ep_cap_sq sside m.to_square) (boardGet sb m.from_square)
          (boardGet sb m.from_square) hok.ne hcap_f hcap_t rfl htE
      | some p =>
        simp only [hepf, hcsf, hpr, reduceIte, Bool.false_eq_true, eq_self_iff_true, ite_true, ite_false,
          Option.getD_some, Option.isSome_none, Option.isSome_some,
          Option.map_some']
        rw [board_undo_ep sb m.from_square m.to_square
          (ep_cap_sq sside m.to_square)
          (if sside = 'w' then p.toUpper else p.toLower)
          (boardGet sb m.from_square) hok.ne hcap_f hcap_t rfl htE,
          set_boardGet_self]
    | false =>
      cases hcsv : m.is_castle with
      | false =>
        cases hpr : m.promotion with
        | none =>
          simp only [hepf, hcsv, hpr, reduceIte, Bool.false_eq_true, eq_self_iff_true, ite_true, ite_false,
          Option.getD_some, Option.isSome_none, Option.isSome_some,
          Option.map_some']
          rw [hcval]
          exact board_undo_normal sb m.from_square m.to_square
            (boardGet sb m.from_square) (boardGet sb m.from_square)
            (boardGet sb m.to_square) hok.ne rfl rfl
        | some p =>
          simp only [hepf, hcsv, hpr, reduceIte, Bool.false_eq_true, eq_self_iff_true, ite_true, ite_false,
          Option.getD_some, Option.isSome_none, Option.isSome_some,
          Option.map_some']
          rw [hcval]
          rw [board_undo_normal sb m.from_square m.to_square
            (if sside = 'w' then p.toUpper else p.toLower)
            (boardGet sb m.from_square) (boardGet sb m.to_square)
            hok.ne rfl rfl, set_boardGet_self]
      | true =>
        obtain ⟨rf, rt, hrsq, hrtE, hrf_lt, hrt_lt, hrff, hrft, hrtf, hrtt,
          hfr⟩ := hok.castle_ok hcsv
        have hrookval : boardGet ((sb.set m.from_square '.').set m.to_square
            (match m.promotion with
              | some p => if sside = 'w' then p.toUpper else p.toLower
              | none => boardGet sb m.from_square)) rf = boardGet sb rf := by
          rw [boardGet_set_ne _ (Ne.symm hrft), boardGet_set_ne _ (Ne.symm hrff)]
        cases hpr : m.promotion with
        | none =>
          simp only [hpr] at hrookval
          simp only [hepf, hcsv, hpr, hrsq, reduceIte, Bool.false_eq_true, eq_self_iff_true, ite_true, ite_false,
          Option.getD_some, Option.isSome_none, Option.isSome_some,
          Option.map_some']
          rw [hcval, hrookval]
          exact board_undo_castle sb m.from_square m.to_square rf rt
            (boardGet sb m.from_square) (boardGet sb m.from_square)
            (boardGet sb m.to_square) (boardGet sb rf)
            hok.ne hrff hrft hrtf hrtt hfr rfl rfl rfl hrtE
        | some p =>
          simp only [hpr] at hrookval
          simp only [hepf, hcsv, hpr, hrsq, reduceIte, Bool.false_eq_true, eq_self_iff_true, ite_true, ite_false,
          Option.getD_some, Option.isSome_none, Option.isSome_some,
          Option.map_some']
          rw [hcval, hrookval]
          rw [List.set_comm (boardGet sb m.to_square)
            (boardGet sb m.from_square) _ (Ne.symm hok.ne), List.set_set]
          exact board_undo_castle sb m.from_square m.to_square rf rt
            (if sside = 'w' then p.toUpper else p.toLower)
            (boardGet sb m.from_square)
            (boardGet sb m.to_square) (boardGet sb rf)
            hok.ne hrff hrft hrtf hrtt hfr rfl rfl rfl hrtE
  · -- repetition restoration
    exact dict_roundtrip srep _ hrep

/-- C1.  For every position (64-cell board, en-passant target empty when set
— the spec's data-model invariant for a target set only the ply after a
double push — and positive repetition counts) and every move of its
legal-move set, `make_move` succeeds and `undo_move` restores the position
exactly: the board (hence the FEN), side to move, castling rights,
en-passant target, halfmove clock, fullmove number, history and the whole
repetition table, counts included. -/
theorem make_undo_restores_state (s : GameState) (m : Move)
    (hb : s.board.length = 64) (hep : EpOk s)
    (hrep : ∀ p ∈ s.repetition, p.2 ≠ 0)
    (hm : m ∈ generate_legal_moves s) :
    ∃ s2, make_move s m = some s2 ∧ undo_move s2 = s :=
  make_undo_of_genOk hrep
    (genOk_of_mem hb hep (mem_generate_legal_moves.mp hm).1)

/-- Witness for C1: the legal rook lift a1a2 of `krkState` applies and
undoes back to the very same state. -/
theorem make_undo_restores_state_witness :
    ∃ s2, make_move krkState ⟨56, 48, none, false, false, none⟩ = some s2
      ∧ undo_move s2 = krkState :=
  make_undo_restores_state krkState _ (by decide) (fun t ht => nomatch ht)
    (by decide) (by decide)

/-- The spec-side description of the double-step pawn advance (section 4.2
step 5): the moved piece is a pawn of the side to move advancing two ranks
from its start rank (white: rank 2, row 6; black: rank 7, row 1). -/
def two_rank_advance (s : GameState) (m : Move) : Prop :=
  (s.side_to_move = 'w' ∧ boardGet s.board m.from_square = 'P'
    ∧ m.from_square / 8 = 6 ∧ m.to_square + 16 = m.from_square)
  ∨ (s.side_to_move = 'b' ∧ boardGet s.board m.from_square = 'p'
    ∧ m.from_square / 8 = 1 ∧ m.to_square = m.from_square + 16)

instance (s : GameState) (m : Move) : Decidable (two_rank_advance s m) := by
  unfold two_rank_advance
  infer_instance

/-- The en-passant field of the state `make_move` produces. -/
theorem make_move_en_passant {s : GameState} {m : Move} {s2 : GameState}
    (hmk : make_move s m = some s2) :
    s2.en_passant = if (boardGet s.board m.from_square).toUpper = 'P'
        && ((m.to_square : Int) - (m.from_square : Int)).natAbs = 16 then
      some ((m.to_square + m.from_square) / 2)
    else none := by
  by_cases hmoved : boardGet s.board m.from_square = '.'
  · simp [make_move, hmoved] at hmk
  · simp only [make_move, if_neg hmoved, Option.some.injEq] at hmk
    rw [← hmk]

/-- C9.  For every generated move applied through `make_move` (on a 64-cell
board with the en-passant data-model invariant), the resulting en-passant
target is the square midway between `from` and `to` exactly when the moved
piece is a pawn advancing two ranks from its start rank, and is cleared to
`none` after every other move — regardless of the target held before. -/
theorem en_passant_set_iff_double_push (s : GameState) (m : Move)
    (hb : s.board.length = 64) (hep : EpOk s)
    (hm : m ∈ generate_pseudo_legal_moves s)
    (s2 : GameState) (hmk : make_move s m = some s2) :
    (two_rank_advance s m →
      s2.en_passant = some ((m.to_square + m.from_square) / 2))
    ∧ (¬two_rank_advance s m → s2.en_passant = none) := by
  have hok := genOk_of_mem hb hep hm
  rw [make_move_en_passant hmk]
  constructor
  · intro htra
    rw [if_pos ?_]
    rcases htra with ⟨_, hP, _, hdelta⟩ | ⟨_, hP, _, hdelta⟩ <;>
      simp [hP, Bool.and_eq_true, decide_eq_true_eq] <;> omega
  · intro hntra
    rw [if_neg ?_]
    intro hcond
    simp only [Bool.and_eq_true, decide_eq_true_eq] at hcond
    obtain ⟨hP, hdelta⟩ := hcond
    rcases hok.pawn_sixteen hP hdelta with ⟨hw, hst, hdl⟩ | ⟨hbk, hst, hdl⟩
    · refine absurd (Or.inl ⟨hw, ?_, hst, hdl⟩) hntra
      have hocc := hok.occ
      rcases (toUpper_eq_P _).mp hP with hpp | hpp
      · exact hpp
      · rw [hpp, hw] at hocc
        simp [piece_color] at hocc
    · refine absurd (Or.inr ⟨hbk, ?_, hst, hdl⟩) hntra
      have hocc := hok.occ
      rcases (toUpper_eq_P _).mp hP with hpp | hpp
      · rw [hpp, hbk] at hocc
        simp [piece_color] at hocc
      · exact hpp

/-- Test input: the standard starting position. -/
def startState : GameState :=
  mkGameState (fenBoard "rnbqkbnr/pppppppp/8/8/8/8/PPPPPPPP/RNBQKBNR") 'w'
    ['K', 'Q', 'k', 'q'] none 0 1

/-- Witness for C9: the double push e2e4 (52 → 36) from the start position
sets the target to e3 = 44, and the single push e2e3 (52 → 44) clears it. -/
theorem en_passant_set_iff_double_push_witness :
    ((make_move startState ⟨52, 36, none, false, false, none⟩).get
        (by decide)).en_passant = some 44
    ∧ ((make_move startState ⟨52, 44, none, false, false, none⟩).get
        (by decide)).en_passant = none :=
  ⟨(en_passant_set_iff_double_push startState _ (by decide)
      (fun t ht => nomatch ht) (by decide) _
      (Option.some_get _).symm).1 (by decide),
   (en_passant_set_iff_double_push startState _ (by decide)
      (fun t ht => nomatch ht) (by decide) _
      (Option.some_get _).symm).2 (by decide)⟩

/-- C10.  On a 64-cell board (with the spec's en-passant invariant), every
pseudo-legal move has both squares in 0..63, its source square holds a piece
of the side to move, and its destination never holds a piece of the mover's
own colour: no self-capture is generated for any piece kind. -/
theorem pseudo_legal_moves_wellformed (s : GameState) (m : Move)
    (hb : s.board.length = 64) (hep : EpOk s)
    (hm : m ∈ generate_pseudo_legal_moves s) :
    m.from_square < 64 ∧ m.to_square < 64
      ∧ piece_color (boardGet s.board m.from_square) = some s.side_to_move
      ∧ piece_color (boardGet s.board m.to_square) ≠ some s.side_to_move :=
  let hok := genOk_of_mem hb hep hm
  ⟨hok.from_lt, hok.to_lt, hok.occ, hok.no_self⟩

/-- Witness for C10, at the knight move b1c3 of the start position. -/
theorem pseudo_legal_moves_wellformed_witness :
    (⟨57, 42, none, false, false, none⟩ : Move).from_square < 64
      ∧ (⟨57, 42, none, false, false, none⟩ : Move).to_square < 64
      ∧ piece_color (boardGet startState.board 57) = some startState.side_to_move
      ∧ piece_color (boardGet startState.board 42) ≠ some startState.side_to_move :=
  pseudo_legal_moves_wellformed startState ⟨57, 42, none, false, false, none⟩
    (by decide) (fun t ht => nomatch ht) (by decide)

/-! ## Where castle moves come from -/

/-- Membership in a conditional list splits into the two branches. -/
theorem mem_ite_or {α : Type} {c : Prop} [Decidable c] {A B : List α} {x : α}
    (h : x ∈ if c then A else B) : x ∈ A ∨ x ∈ B := by
  split at h
  · exact Or.inl h
  · exact Or.inr h

/-- Every pawn move starts on its square and is not castle-flagged. -/
theorem pawn_moves_shape {s : GameState} {idx : Nat} {m : Move}
    (hm : m ∈ pawn_moves s idx) :
    m.from_square = idx ∧ m.is_castle = false := by
  simp only [pawn_moves] at hm
  rcases List.mem_append.mp hm with hm | hm
  · rcases mem_ite_nil hm with ⟨_, hm⟩
    rcases mem_ite_nil hm with ⟨_, hm⟩
    rcases List.mem_append.mp hm with hm | hm
    · rcases mem_ite_or hm with hm | hm
      · obtain ⟨h1, _, h3, _⟩ := promo_pushes_shape hm
        exact ⟨h1, h3⟩
      · simp only [List.mem_singleton] at hm
        exact ⟨by rw [hm], by rw [hm]⟩
    · rcases mem_ite_nil hm with ⟨_, hm⟩
      rcases mem_ite_nil hm with ⟨_, hm⟩
      simp only [List.mem_singleton] at hm
      exact ⟨by rw [hm], by rw [hm]⟩
  · simp only [List.mem_flatMap] at hm
    obtain ⟨dc, _, hm⟩ := hm
    rcases mem_ite_nil hm with ⟨_, hm⟩
    rcases List.mem_append.mp hm with hm | hm
    · rcases mem_ite_nil hm with ⟨_, hm⟩
      rcases mem_ite_or hm with hm | hm
      · obtain ⟨h1, _, h3, _⟩ := promo_captures_shape hm
        exact ⟨h1, h3⟩
      · simp only [List.mem_singleton] at hm
        exact ⟨by rw [hm], by rw [hm]⟩
    · rcases mem_ite_nil hm with ⟨_, hm⟩
      simp only [List.mem_singleton] at hm
      exact ⟨by rw [hm], by rw [hm]⟩

/-- Every knight/king offset move starts on its square, not castle-flagged. -/
theorem step_moves_shape {s : GameState} {idx : Nat} {steps : List (Int × Int)}
    {m : Move} (hm : m ∈ step_moves s idx steps) :
    m.from_square = idx ∧ m.is_castle = false := by
  simp only [step_moves, List.mem_flatMap] at hm
  obtain ⟨d, _, hm⟩ := hm
  rcases mem_ite_nil hm with ⟨_, hm⟩
  rcases mem_ite_or hm with hm | hm
  · simp only [List.mem_singleton] at hm
    exact ⟨by rw [hm], by rw [hm]⟩
  · rcases mem_ite_nil hm with ⟨_, hm⟩
    simp only [List.mem_singleton] at hm
    exact ⟨by rw [hm], by rw [hm]⟩

/-- Every sliding-ray move starts on its square, not castle-flagged. -/
theorem slide_ray_shape {b : List Char} {idx : Nat} {enemy : Char}
    {dr dc : Int} {m : Move} :
    ∀ (fuel : Nat) (r c : Int), m ∈ slide_ray b idx enemy r c dr dc fuel →
    m.from_square = idx ∧ m.is_castle = false := by
  intro fuel
  induction fuel with
  | zero =>
    intro r c hm
    exact absurd hm (List.not_mem_nil m)
  | succ fuel ih =>
    intro r c hm
    simp only [slide_ray] at hm
    rcases mem_ite_nil hm with ⟨_, hm⟩
    rcases mem_ite_or hm with hm | hm
    · rcases List.mem_cons.mp hm with hm | hm
      · exact ⟨by rw [hm], by rw [hm]⟩
      · exact ih _ _ hm
    · rcases mem_ite_nil hm with ⟨_, hm⟩
      simp only [List.mem_singleton] at hm
      exact ⟨by rw [hm], by rw [hm]⟩

/-- Every castling-section move starts on its square. -/
theorem castle_moves_from_eq {s : GameState} {idx : Nat} {m : Move}
    (hm : m ∈ castle_moves s idx) : m.from_square = idx := by
  simp only [castle_moves] at hm
  rcases mem_ite_or hm with hm | hm
  · rcases List.mem_append.mp hm with hm | hm <;>
      (rcases mem_ite_nil hm with ⟨_, hm⟩
       simp only [List.mem_singleton] at hm
       rw [hm])
  · rcases mem_ite_or hm with hm | hm
    · rcases List.mem_append.mp hm with hm | hm <;>
        (rcases mem_ite_nil hm with ⟨_, hm⟩
         simp only [List.mem_singleton] at hm
         rw [hm])
    · exact absurd hm (List.not_mem_nil m)

/-- A castle-flagged move of the per-square dispatch comes from the castling
section, and every dispatched move starts on its square. -/
theorem piece_moves_at_castle {s : GameState} {idx : Nat} {piece : Char}
    {m : Move} (hm : m ∈ piece_moves_at s idx piece) :
    m.from_square = idx
      ∧ (m.is_castle = true →
          m ∈ castle_moves s idx ∧ piece.toUpper = 'K') := by
  simp only [piece_moves_at] at hm
  split at hm
  · obtain ⟨h1, h2⟩ := pawn_moves_shape hm
    exact ⟨h1, fun hc => absurd hc (by simp [h2])⟩
  · split at hm
    · obtain ⟨h1, h2⟩ := step_moves_shape hm
      exact ⟨h1, fun hc => absurd hc (by simp [h2])⟩
    · split at hm
      · simp only [slide_moves, List.mem_flatMap] at hm
        obtain ⟨d, _, hm⟩ := hm
        obtain ⟨h1, h2⟩ := slide_ray_shape _ _ _ hm
        exact ⟨h1, fun hc => absurd hc (by simp [h2])⟩
      · split at hm
        · next hK =>
          rcases List.mem_append.mp hm with hm | hm
          · obtain ⟨h1, h2⟩ := step_moves_shape hm
            exact ⟨h1, fun hc => absurd hc (by simp [h2])⟩
          · exact ⟨castle_moves_from_eq hm, fun _ => ⟨hm, hK⟩⟩
        · exact absurd hm (List.not_mem_nil m)

/-- Condition-preserving split of membership in a conditional list. -/
theorem mem_ite_cases {α : Type} {c : Prop} [Decidable c] {A B : List α}
    {x : α} (h : x ∈ if c then A else B) :
    (c ∧ x ∈ A) ∨ (¬c ∧ x ∈ B) := by
  split at h
  · exact Or.inl ⟨by assumption, h⟩
  · exact Or.inr ⟨by assumption, h⟩

/-- An occupied cell lies inside the board list. -/
theorem lt_length_of_boardGet_ne {b : List Char} {i : Nat}
    (h : boardGet b i ≠ '.') : i < b.length := by
  by_contra hge
  rw [boardGet, List.getD_eq_getElem?_getD,
    List.getElem?_eq_none (Nat.le_of_not_lt hge)] at h
  exact h rfl

/-- Bridge: membership in the per-square move list lifts to the generated
pseudo-legal list. -/
theorem mem_pseudo_of_piece_moves {s : GameState} {idx : Nat} {piece : Char}
    {m : Move} (hpe : s.board[idx]? = some piece) (hdot : piece ≠ '.')
    (hcol : piece_color piece = some s.side_to_move)
    (hm : m ∈ piece_moves_at s idx piece) :
    m ∈ generate_pseudo_legal_moves s := by
  unfold generate_pseudo_legal_moves
  rw [List.mem_flatMap]
  refine ⟨(idx, piece), List.mem_enum_iff_getElem?.mpr hpe, ?_⟩
  show m ∈ if piece = '.' || piece_color piece ≠ some s.side_to_move then []
    else piece_moves_at s idx piece
  rw [if_neg (by simp [hdot, hcol])]
  exact hm

/-- The spec conditions for the white kingside castle g1 (section 4.3): the
right still held, the two squares strictly between king and rook empty, and
the king's square plus both traversed squares unattacked by black. -/
def wk_castle_conditions (s : GameState) : Prop :=
  s.side_to_move = 'w' ∧ boardGet s.board 60 = 'K'
    ∧ s.castling_rights.contains 'K' = true
    ∧ boardGet s.board 61 = '.' ∧ boardGet s.board 62 = '.'
    ∧ is_square_attacked s 60 'b' = false
    ∧ is_square_attacked s 61 'b' = false
    ∧ is_square_attacked s 62 'b' = false

/-- The spec conditions for the white queenside castle c1: the right still
held, the three squares strictly between king and rook empty, and the king's
square plus the two squares it traverses (d1, c1 — not the rook's path b1)
unattacked by black. -/
def wq_castle_conditions (s : GameState) : Prop :=
  s.side_to_move = 'w' ∧ boardGet s.board 60 = 'K'
    ∧ s.castling_rights.contains 'Q' = true
    ∧ boardGet s.board 57 = '.' ∧ boardGet s.board 58 = '.'
    ∧ boardGet s.board 59 = '.'
    ∧ is_square_attacked s 60 'b' = false
    ∧ is_square_attacked s 59 'b' = false
    ∧ is_square_attacked s 58 'b' = false

instance (s : GameState) : Decidable (wk_castle_conditions s) := by
  unfold wk_castle_conditions
  infer_instance

instance (s : GameState) : Decidable (wq_castle_conditions s) := by
  unfold wq_castle_conditions
  infer_instance

/-- The white kingside castle e1g1 is generated iff its conditions hold. -/
theorem wk_castle_mem_iff (s : GameState) :
    (⟨60, 62, none, true, false, none⟩ : Move)
        ∈ generate_pseudo_legal_moves s
      ↔ wk_castle_conditions s := by
  constructor
  · intro hm
    unfold generate_pseudo_legal_moves at hm
    rw [List.mem_flatMap] at hm
    obtain ⟨⟨idx, piece⟩, hpe, hmv⟩ := hm
    have hpe2 : s.board[idx]? = some piece :=
      List.mem_enum_iff_getElem?.mp hpe
    split at hmv
    · exact absurd hmv (List.not_mem_nil _)
    · next hcond =>
      simp only [Bool.or_eq_true, decide_eq_true_eq, not_or, not_not] at hcond
      obtain ⟨hdot, hcol⟩ := hcond
      obtain ⟨hfrom_eq, hcast⟩ := piece_moves_at_castle hmv
      have hidx : idx = 60 := hfrom_eq.symm
      subst hidx
      obtain ⟨hcm, hupperK⟩ := hcast rfl
      simp only [castle_moves] at hcm
      rcases mem_ite_cases hcm with ⟨hwc, hcm⟩ | ⟨_, hcm⟩
      · simp only [Bool.and_eq_true, decide_eq_true_eq] at hwc
        have hw : s.side_to_move = 'w' := hwc.1.1
        have hpK : piece = 'K' := by
          rcases (toUpper_eq_K piece).mp hupperK with h | h
          · exact h
          · rw [h, hw] at hcol
            simp [piece_color] at hcol
        have hbg : boardGet s.board 60 = 'K' := by
          rw [boardGet, List.getD_eq_getElem?_getD, hpe2, hpK]
          rfl
        rcases List.mem_append.mp hcm with hcm | hcm
        · rcases mem_ite_cases hcm with ⟨hkc, _⟩ | ⟨_, hcm⟩
          · simp only [hw, Char.reduceEq, reduceIte, Bool.and_eq_true,
              decide_eq_true_eq, Bool.not_eq_true'] at hkc
            exact ⟨hw, hbg, hkc.1.1.1.1.1, hkc.1.1.1.1.2, hkc.1.1.1.2,
              hkc.1.1.2, hkc.1.2, hkc.2⟩
          · exact absurd hcm (List.not_mem_nil _)
        · rcases mem_ite_cases hcm with ⟨_, hcm⟩ | ⟨_, hcm⟩
          · simp only [List.mem_singleton] at hcm
            exact absurd hcm (by decide)
          · exact absurd hcm (List.not_mem_nil _)
      · rcases mem_ite_cases hcm with ⟨_, hcm⟩ | ⟨_, hcm⟩
        · rcases List.mem_append.mp hcm with hcm | hcm <;>
            (rcases mem_ite_cases hcm with ⟨_, hcm⟩ | ⟨_, hcm⟩
             · simp only [List.mem_singleton] at hcm
               exact absurd hcm (by decide)
             · exact absurd hcm (List.not_mem_nil _))
        · exact absurd hcm (List.not_mem_nil _)
  · rintro ⟨hw, hK, hcr, h61, h62, ha60, ha61, ha62⟩
    have hlen : 60 < s.board.length :=
      lt_length_of_boardGet_ne (by rw [hK]; decide)
    refine @mem_pseudo_of_piece_moves s 60 'K' _ ?_ (by decide)
      (by rw [hw]; decide) ?_
    · rw [List.getElem?_eq_getElem hlen, ← boardGet_eq_getElem hlen, hK]
    · rw [show piece_moves_at s 60 'K'
          = step_moves s 60 king_dirs ++ castle_moves s 60 from rfl]
      refine List.mem_append.mpr (Or.inr ?_)
      simp only [castle_moves]
      rw [if_pos (by rw [hw]; decide)]
      refine List.mem_append.mpr (Or.inl ?_)
      rw [if_pos ?_]
      · exact List.mem_singleton.mpr rfl
      · have hcr2 : 'K' ∈ s.castling_rights := by simpa using hcr
        simp only [hw, Char.reduceEq, reduceIte]
        rw [show sqIx "f1" = 61 from rfl, show sqIx "g1" = 62 from rfl]
        simp [hcr2, h61, h62, ha60, ha61, ha62]

/-- The white queenside castle e1c1 is generated iff its conditions hold. -/
theorem wq_castle_mem_iff (s : GameState) :
    (⟨60, 58, none, true, false, none⟩ : Move)
        ∈ generate_pseudo_legal_moves s
      ↔ wq_castle_conditions s := by
  constructor
  · intro hm
    unfold generate_pseudo_legal_moves at hm
    rw [List.mem_flatMap] at hm
    obtain ⟨⟨idx, piece⟩, hpe, hmv⟩ := hm
    have hpe2 : s.board[idx]? = some piece :=
      List.mem_enum_iff_getElem?.mp hpe
    split at hmv
    · exact absurd hmv (List.not_mem_nil _)
    · next hcond =>
      simp only [Bool.or_eq_true, decide_eq_true_eq, not_or, not_not] at hcond
      obtain ⟨hdot, hcol⟩ := hcond
      obtain ⟨hfrom_eq, hcast⟩ := piece_moves_at_castle hmv
      have hidx : idx = 60 := hfrom_eq.symm
      subst hidx
      obtain ⟨hcm, hupperK⟩ := hcast rfl
      simp only [castle_moves] at hcm
      rcases mem_ite_cases hcm with ⟨hwc, hcm⟩ | ⟨_, hcm⟩
      · simp only [Bool.and_eq_true, decide_eq_true_eq] at hwc
        have hw : s.side_to_move = 'w' := hwc.1.1
        have hpK : piece = 'K' := by
          rcases (toUpper_eq_K piece).mp hupperK with h | h
          · exact h
          · rw [h, hw] at hcol
            simp [piece_color] at hcol
        have hbg : boardGet s.board 60 = 'K' := by
          rw [boardGet, List.getD_eq_getElem?_getD, hpe2, hpK]
          rfl
        rcases List.mem_append.mp hcm with hcm | hcm
        · rcases mem_ite_cases hcm with ⟨_, hcm⟩ | ⟨_, hcm⟩
          · simp only [List.mem_singleton] at hcm
            exact absurd hcm (by decide)
          · exact absurd hcm (List.not_mem_nil _)
        · rcases mem_ite_cases hcm with ⟨hqc, _⟩ | ⟨_, hcm⟩
          · simp only [hw, Char.reduceEq, reduceIte, Bool.and_eq_true,
              decide_eq_true_eq, Bool.not_eq_true'] at hqc
            exact ⟨hw, hbg, hqc.1.1.1.1.1.1, hqc.1.1.1.1.1.2,
              hqc.1.1.1.1.2, hqc.1.1.1.2, hqc.1.1.2, hqc.1.2, hqc.2⟩
          · exact absurd hcm (List.not_mem_nil _)
      · rcases mem_ite_cases hcm with ⟨_, hcm⟩ | ⟨_, hcm⟩
        · rcases List.mem_append.mp hcm with hcm | hcm <;>
            (rcases mem_ite_cases hcm with ⟨_, hcm⟩ | ⟨_, hcm⟩
             · simp only [List.mem_singleton] at hcm
               exact absurd hcm (by decide)
             · exact absurd hcm (List.not_mem_nil _))
        · exact absurd hcm (List.not_mem_nil _)
  · rintro ⟨hw, hK, hcr, h57, h58, h59, ha60, ha59, ha58⟩
    have hlen : 60 < s.board.length :=
      lt_length_of_boardGet_ne (by rw [hK]; decide)
    refine @mem_pseudo_of_piece_moves s 60 'K' _ ?_ (by decide)
      (by rw [hw]; decide) ?_
    · rw [List.getElem?_eq_getElem hlen, ← boardGet_eq_getElem hlen, hK]
    · rw [show piece_moves_at s 60 'K'
          = step_moves s 60 king_dirs ++ castle_moves s 60 from rfl]
      refine List.mem_append.mpr (Or.inr ?_)
      simp only [castle_moves]
      rw [if_pos (by rw [hw]; decide)]
      refine List.mem_append.mpr (Or.inr ?_)
      rw [if_pos ?_]
      · exact List.mem_singleton.mpr rfl
      · have hcr2 : 'Q' ∈ s.castling_rights := by simpa using hcr
        simp only [hw, Char.reduceEq, reduceIte]
        rw [show sqIx "b1" = 57 from rfl, show sqIx "c1" = 58 from rfl,
          show sqIx "d1" = 59 from rfl]
        simp [hcr2, h57, h58, h59, ha60, ha59, ha58]

/-- The conditions for the black kingside castle g8, from the mirrored code
branch: the right still held, f8 and g8 empty, and the king's square e8 plus
both traversed squares unattacked by white. -/
def bk_castle_conditions (s : GameState) : Prop :=
  s.side_to_move = 'b' ∧ boardGet s.board 4 = 'k'
    ∧ s.castling_rights.contains 'k' = true
    ∧ boardGet s.board 5 = '.' ∧ boardGet s.board 6 = '.'
    ∧ is_square_attacked s 4 'w' = false
    ∧ is_square_attacked s 5 'w' = false
    ∧ is_square_attacked s 6 'w' = false

/-- The conditions for the black queenside castle c8: the right still held,
b8, c8 and d8 empty, and the king's square e8 plus the two squares it
traverses (d8, c8 — not the rook's path b8) unattacked by white. -/
def bq_castle_conditions (s : GameState) : Prop :=
  s.side_to_move = 'b' ∧ boardGet s.board 4 = 'k'
    ∧ s.castling_rights.contains 'q' = true
    ∧ boardGet s.board 1 = '.' ∧ boardGet s.board 2 = '.'
    ∧ boardGet s.board 3 = '.'
    ∧ is_square_attacked s 4 'w' = false
    ∧ is_square_attacked s 3 'w' = false
    ∧ is_square_attacked s 2 'w' = false

instance (s : GameState) : Decidable (bk_castle_conditions s) := by
  unfold bk_castle_conditions
  infer_instance

instance (s : GameState) : Decidable (bq_castle_conditions s) := by
  unfold bq_castle_conditions
  infer_instance

/-- The black kingside castle e8g8 is generated iff its conditions hold. -/
theorem bk_castle_mem_iff (s : GameState) :
    (⟨4, 6, none, true, false, none⟩ : Move)
        ∈ generate_pseudo_legal_moves s
      ↔ bk_castle_conditions s := by
  constructor
  · intro hm
    unfold generate_pseudo_legal_moves at hm
    rw [List.mem_flatMap] at hm
    obtain ⟨⟨idx, piece⟩, hpe, hmv⟩ := hm
    have hpe2 : s.board[idx]? = some piece :=
      List.mem_enum_iff_getElem?.mp hpe
    split at hmv
    · exact absurd hmv (List.not_mem_nil _)
    · next hcond =>
      simp only [Bool.or_eq_true, decide_eq_true_eq, not_or, not_not] at hcond
      obtain ⟨hdot, hcol⟩ := hcond
      obtain ⟨hfrom_eq, hcast⟩ := piece_moves_at_castle hmv
      have hidx : idx = 4 := hfrom_eq.symm
      subst hidx
      obtain ⟨hcm, hupperK⟩ := hcast rfl
      simp only [castle_moves] at hcm
      rcases mem_ite_cases hcm with ⟨hwc, _⟩ | ⟨_, hcm⟩
      · simp only [Bool.and_eq_true, decide_eq_true_eq] at hwc
        exact absurd hwc.1.2 (by decide)
      · rcases mem_ite_cases hcm with ⟨hbc, hcm⟩ | ⟨_, hcm⟩
        · simp only [Bool.and_eq_true, decide_eq_true_eq] at hbc
          have hb : s.side_to_move = 'b' := hbc.1.1
          have hpk : piece = 'k' := by
            rcases (toUpper_eq_K piece).mp hupperK with h | h
            · rw [h, hb] at hcol
              simp [piece_color] at hcol
            · exact h
          have hbg : boardGet s.board 4 = 'k' := by
            rw [boardGet, List.getD_eq_getElem?_getD, hpe2, hpk]
            rfl
          rcases List.mem_append.mp hcm with hcm | hcm
          · rcases mem_ite_cases hcm with ⟨hkc, _⟩ | ⟨_, hcm⟩
            · simp only [hb, Char.reduceEq, reduceIte, Bool.and_eq_true,
                decide_eq_true_eq, Bool.not_eq_true'] at hkc
              exact ⟨hb, hbg, hkc.1.1.1.1.1, hkc.1.1.1.1.2, hkc.1.1.1.2,
                hkc.1.1.2, hkc.1.2, hkc.2⟩
            · exact absurd hcm (List.not_mem_nil _)
          · rcases mem_ite_cases hcm with ⟨_, hcm⟩ | ⟨_, hcm⟩
            · simp only [List.mem_singleton] at hcm
              exact absurd hcm (by decide)
            · exact absurd hcm (List.not_mem_nil _)
        · exact absurd hcm (List.not_mem_nil _)
  · rintro ⟨hb, hK, hcr, h5, h6, ha4, ha5, ha6⟩
    have hlen : 4 < s.board.length :=
      lt_length_of_boardGet_ne (by rw [hK]; decide)
    refine @mem_pseudo_of_piece_moves s 4 'k' _ ?_ (by decide)
      (by rw [hb]; decide) ?_
    · rw [List.getElem?_eq_getElem hlen, ← boardGet_eq_getElem hlen, hK]
    · rw [show piece_moves_at s 4 'k'
          = step_moves s 4 king_dirs ++ castle_moves s 4 from rfl]
      refine List.mem_append.mpr (Or.inr ?_)
      simp only [castle_moves]
      split
      · next hwc =>
        exfalso
        simp only [Bool.and_eq_true, decide_eq_true_eq] at hwc
        exact absurd hwc.1.2 (by decide)
      · split
        · refine List.mem_append.mpr (Or.inl ?_)
          rw [if_pos ?_]
          · exact List.mem_singleton.mpr rfl
          · have hcr2 : 'k' ∈ s.castling_rights := by simpa using hcr
            simp only [hb, Char.reduceEq, reduceIte]
            rw [show sqIx "f8" = 5 from rfl, show sqIx "g8" = 6 from rfl]
            simp [hcr2, h5, h6, ha4, ha5, ha6]
        · next hnb =>
          exfalso
          apply hnb
          simp only [Bool.and_eq_true, decide_eq_true_eq]
          exact ⟨⟨hb, by decide⟩, by decide⟩

/-- The black queenside castle e8c8 is generated iff its conditions hold. -/
theorem bq_castle_mem_iff (s : GameState) :
    (⟨4, 2, none, true, false, none⟩ : Move)
        ∈ generate_pseudo_legal_moves s
      ↔ bq_castle_conditions s := by
  constructor
  · intro hm
    unfold generate_pseudo_legal_moves at hm
    rw [List.mem_flatMap] at hm
    obtain ⟨⟨idx, piece⟩, hpe, hmv⟩ := hm
    have hpe2 : s.board[idx]? = some piece :=
      List.mem_enum_iff_getElem?.mp hpe
    split at hmv
    · exact absurd hmv (List.not_mem_nil _)
    · next hcond =>
      simp only [Bool.or_eq_true, decide_eq_true_eq, not_or, not_not] at hcond
      obtain ⟨hdot, hcol⟩ := hcond
      obtain ⟨hfrom_eq, hcast⟩ := piece_moves_at_castle hmv
      have hidx : idx = 4 := hfrom_eq.symm
      subst hidx
      obtain ⟨hcm, hupperK⟩ := hcast rfl
      simp only [castle_moves] at hcm
      rcases mem_ite_cases hcm with ⟨hwc, _⟩ | ⟨_, hcm⟩
      · simp only [Bool.and_eq_true, decide_eq_true_eq] at hwc
        exact absurd hwc.1.2 (by decide)
      · rcases mem_ite_cases hcm with ⟨hbc, hcm⟩ | ⟨_, hcm⟩
        · simp only [Bool.and_eq_true, decide_eq_true_eq] at hbc
          have hb : s.side_to_move = 'b' := hbc.1.1
          have hpk : piece = 'k' := by
            rcases (toUpper_eq_K piece).mp hupperK with h | h
            · rw [h, hb] at hcol
              simp [piece_color] at hcol
            · exact h
          have hbg : boardGet s.board 4 = 'k' := by
            rw [boardGet, List.getD_eq_getElem?_getD, hpe2, hpk]
            rfl
          rcases List.mem_append.mp hcm with hcm | hcm
          · rcases mem_ite_cases hcm with ⟨_, hcm⟩ | ⟨_, hcm⟩
            · simp only [List.mem_singleton] at hcm
              exact absurd hcm (by decide)
            · exact absurd hcm (List.not_mem_nil _)
          · rcases mem_ite_cases hcm with ⟨hqc, _⟩ | ⟨_, hcm⟩
            · simp only [hb, Char.reduceEq, reduceIte, Bool.and_eq_true,
                decide_eq_true_eq, Bool.not_eq_true'] at hqc
              exact ⟨hb, hbg, hqc.1.1.1.1.1.1, hqc.1.1.1.1.1.2,
                hqc.1.1.1.1.2, hqc.1.1.1.2, hqc.1.1.2, hqc.1.2, hqc.2⟩
            · exact absurd hcm (List.not_mem_nil _)
        · exact absurd hcm (List.not_mem_nil _)
  · rintro ⟨hb, hK, hcr, h1, h2, h3, ha4, ha3, ha2⟩
    have hlen : 4 < s.board.length :=
      lt_length_of_boardGet_ne (by rw [hK]; decide)
    refine @mem_pseudo_of_piece_moves s 4 'k' _ ?_ (by decide)
      (by rw [hb]; decide) ?_
    · rw [List.getElem?_eq_getElem hlen, ← boardGet_eq_getElem hlen, hK]
    · rw [show piece_moves_at s 4 'k'
          = step_moves s 4 king_dirs ++ castle_moves s 4 from rfl]
      refine List.mem_append.mpr (Or.inr ?_)
      simp only [castle_moves]
      split
      · next hwc =>
        exfalso
        simp only [Bool.and_eq_true, decide_eq_true_eq] at hwc
        exact absurd hwc.1.2 (by decide)
      · split
        · refine List.mem_append.mpr (Or.inr ?_)
          rw [if_pos ?_]
          · exact List.mem_singleton.mpr rfl
          · have hcr2 : 'q' ∈ s.castling_rights := by simpa using hcr
            simp only [hb, Char.reduceEq, reduceIte]
            rw [show sqIx "b8" = 1 from rfl, show sqIx "c8" = 2 from rfl,
              show sqIx "d8" = 3 from rfl]
            simp [hcr2, h1, h2, h3, ha4, ha3, ha2]
        · next hnb =>
          exfalso
          apply hnb
          simp only [Bool.and_eq_true, decide_eq_true_eq]
          exact ⟨⟨hb, by decide⟩, by decide⟩

/-- Test input: the castling test position of the spec,
`r3k2r/8/8/8/8/8/8/R3K2R w KQkq - 0 1`. -/
def castleFenState : GameState :=
  mkGameState (fenBoard "r3k2r/8/8/8/8/8/8/R3K2R") 'w' ['K', 'Q', 'k', 'q']
    none 0 1

/-- Test input: the castling test position with black to move,
`r3k2r/8/8/8/8/8/8/R3K2R b KQkq - 0 1`. -/
def castleFenStateB : GameState :=
  mkGameState (fenBoard "r3k2r/8/8/8/8/8/8/R3K2R") 'b' ['K', 'Q', 'k', 'q']
    none 0 1

/-- C5.  A castling move of either colour is generated exactly when the
matching right is still held, the squares strictly between king and rook are
empty, and the king's square plus both traversed squares (not the rook's
path) are unattacked by the enemy — with the mover's king on its home square
and that side to move, as the castling context requires.  The four
characterisations cover white's g1/c1 branches and black's mirrored g8/c8
branches; and from the FEN `r3k2r/8/8/8/8/8/8/R3K2R` with either side to
move (rights `KQkq`), both castles of the side to move are in the
legal-move set. -/
theorem castling_generated_iff :
    (∀ s : GameState,
      (⟨60, 62, none, true, false, none⟩ : Move)
          ∈ generate_pseudo_legal_moves s
        ↔ wk_castle_conditions s)
    ∧ (∀ s : GameState,
      (⟨60, 58, none, true, false, none⟩ : Move)
          ∈ generate_pseudo_legal_moves s
        ↔ wq_castle_conditions s)
    ∧ (∀ s : GameState,
      (⟨4, 6, none, true, false, none⟩ : Move)
          ∈ generate_pseudo_legal_moves s
        ↔ bk_castle_conditions s)
    ∧ (∀ s : GameState,
      (⟨4, 2, none, true, false, none⟩ : Move)
          ∈ generate_pseudo_legal_moves s
        ↔ bq_castle_conditions s)
    ∧ game_state_from_fen "r3k2r/8/8/8/8/8/8/R3K2R w KQkq - 0 1"
        = some castleFenState
    ∧ (⟨60, 62, none, true, false, none⟩ : Move)
        ∈ generate_legal_moves castleFenState
    ∧ (⟨60, 58, none, true, false, none⟩ : Move)
        ∈ generate_legal_moves castleFenState
    ∧ game_state_from_fen "r3k2r/8/8/8/8/8/8/R3K2R b KQkq - 0 1"
        = some castleFenStateB
    ∧ (⟨4, 6, none, true, false, none⟩ : Move)
        ∈ generate_legal_moves castleFenStateB
    ∧ (⟨4, 2, none, true, false, none⟩ : Move)
        ∈ generate_legal_moves castleFenStateB :=
  ⟨wk_castle_mem_iff, wq_castle_mem_iff, bk_castle_mem_iff, bq_castle_mem_iff,
   by decide, by decide, by decide, by decide, by decide, by decide⟩

/-- Witness for C5: both directions of the kingside characterisation for
each colour, at the castling test position with the matching side to move. -/
theorem castling_generated_iff_witness :
    (wk_castle_conditions castleFenState
      ∧ (⟨60, 62, none, true, false, none⟩ : Move)
          ∈ generate_pseudo_legal_moves castleFenState)
    ∧ (bk_castle_conditions castleFenStateB
      ∧ (⟨4, 6, none, true, false, none⟩ : Move)
          ∈ generate_pseudo_legal_moves castleFenStateB) :=
  ⟨⟨by decide, (castling_generated_iff.1 castleFenState).mpr (by decide)⟩,
   ⟨by decide, (castling_generated_iff.2.2.1 castleFenStateB).mpr (by decide)⟩⟩

/-! ## FEN round-trip -/

/-- Claim-side predicate: one character of a well-formed FEN row. Digits are
run lengths 1..8 (never 0, and 9 cannot occur in an 8-cell row), every other
character is a piece letter — in particular not the cell filler `.` nor the
row separator `/`. -/
def fenCellOK (c : Char) : Bool :=
  if c.isDigit then ['1', '2', '3', '4', '5', '6', '7', '8'].contains c
  else c != '.' && c != '/'

/-- Claim-side predicate: no two adjacent digits, i.e. every empty run is
encoded by a single digit (no split runs). -/
def noSplitRuns : List Char → Bool
  | [] => true
  | a :: r =>
    (match r with
     | [] => true
     | b :: _ => !(a.isDigit && b.isDigit)) && noSplitRuns r

/-- Number of board cells a FEN-row character stands for. -/
def cellWeight (c : Char) : Nat := if c.isDigit then digitVal c else 1

/-- Claim-side predicate: a well-formed FEN row — well-formed cells, no split
runs, exactly 8 cells. -/
def rowWF (row : List Char) : Bool :=
  row.all fenCellOK && noSplitRuns row && ((row.map cellWeight).sum == 8)

/-- Claim-side predicate: a well-formed board FEN — 8 well-formed rows
(hence 64 cells). -/
def fenWF (s : String) : Bool :=
  let rows := splitChar '/' s.data
  (rows.length == 8) && rows.all rowWF

/-- `expandRow` is a homomorphism for append. -/
theorem expandRow_append (xs ys : List Char) :
    expandRow (xs ++ ys) = expandRow xs ++ expandRow ys := by
  induction xs with
  | nil => rfl
  | cons c r ih =>
    by_cases hd : c.isDigit
    · simp [expandRow, hd, ih, List.append_assoc]
    · simp [expandRow, hd, ih]

/-- Single-digit run lengths expand to that many empty cells. -/
theorem expand_repr (e : Nat) (h1 : 1 ≤ e) (h2 : e ≤ 8) :
    expandRow (Nat.repr e).data = List.replicate e '.' := by
  interval_cases e <;> decide

/-- The decimal form of a run length 1..8 is all digits. -/
theorem repr_data_isDigit (e : Nat) (h1 : 1 ≤ e) (h2 : e ≤ 8) :
    ∀ x ∈ (Nat.repr e).data, x.isDigit = true := by
  interval_cases e <;> decide

/-- The decimal form of the value of a digit 1..8 is that digit back. -/
theorem repr_digitVal (c : Char) (h : c ∈ ['1', '2', '3', '4', '5', '6', '7', '8']) :
    (Nat.repr (digitVal c)).data = [c] ∧ digitVal c ≠ 0 := by
  fin_cases h <;> exact ⟨by decide, by decide⟩

/-- Leading empties feed the run counter of `rleRow`. -/
theorem rleRow_replicate (k : Nat) (rest : List Char) :
    ∀ e, rleRow (List.replicate k '.' ++ rest) e = rleRow rest (e + k) := by
  induction k with
  | zero => intro e; rfl
  | succ k ih =>
    intro e
    rw [List.replicate_succ, List.cons_append,
      show rleRow ('.' :: (List.replicate k '.' ++ rest)) e
          = rleRow (List.replicate k '.' ++ rest) (e + 1) from by
        rw [rleRow, if_pos rfl],
      ih (e + 1), Nat.add_assoc, Nat.add_comm 1 k]

/-- Expanding the run-length encoding of a row of at most 8 cells (counting
the `e` pending empties) restores the pending empties and the row. -/
theorem expandRow_rleRow (row : List Char) :
    ∀ e, e + row.length ≤ 8 → (∀ c ∈ row, c.isDigit = false) →
      expandRow (rleRow row e) = List.replicate e '.' ++ row := by
  induction row with
  | nil =>
    intro e he _
    by_cases h0 : e = 0
    · subst h0; rfl
    · rw [show rleRow [] e = (Nat.repr e).data from by rw [rleRow, if_neg h0],
        expand_repr e (Nat.one_le_iff_ne_zero.mpr h0) (by omega),
        List.append_nil]
  | cons c r ih =>
    intro e he hc
    rw [List.length_cons] at he
    by_cases hdot : c = '.'
    · subst hdot
      rw [show rleRow ('.' :: r) e = rleRow r (e + 1) from by rw [rleRow, if_pos rfl],
        ih (e + 1) (by omega) (fun x hx => hc x (List.mem_cons_of_mem _ hx)),
        List.replicate_succ']
      simp [List.append_assoc]
    · rw [show rleRow (c :: r) e
          = (if e = 0 then [] else (Nat.repr e).data) ++ c :: rleRow r 0 from by
            rw [rleRow, if_neg hdot],
        expandRow_append]
      have hpre : expandRow (if e = 0 then [] else (Nat.repr e).data)
          = List.replicate e '.' := by
        by_cases h0 : e = 0
        · subst h0; rfl
        · rw [if_neg h0]
          exact expand_repr e (Nat.one_le_iff_ne_zero.mpr h0) (by omega)
      have hcd : c.isDigit = false := hc c (List.mem_cons_self _ _)
      rw [hpre, show expandRow (c :: rleRow r 0) = c :: expandRow (rleRow r 0) from by
          simp [expandRow, hcd],
        ih 0 (by omega) (fun x hx => hc x (List.mem_cons_of_mem _ hx))]
      rfl

/-- Every character emitted by `rleRow` on a short row is a row character or
a digit. -/
theorem mem_rleRow (row : List Char) :
    ∀ e x, e + row.length ≤ 8 → x ∈ rleRow row e →
      x ∈ row ∨ x.isDigit = true := by
  induction row with
  | nil =>
    intro e x he hx
    by_cases h0 : e = 0
    · subst h0; simp [rleRow] at hx
    · rw [show rleRow [] e = (Nat.repr e).data from by rw [rleRow, if_neg h0]] at hx
      exact Or.inr
        (repr_data_isDigit e (Nat.one_le_iff_ne_zero.mpr h0) (by simpa using he) x hx)
  | cons c r ih =>
    intro e x he hx
    rw [List.length_cons] at he
    by_cases hdot : c = '.'
    · subst hdot
      rw [show rleRow ('.' :: r) e = rleRow r (e + 1) from by
        rw [rleRow, if_pos rfl]] at hx
      rcases ih (e + 1) x (by omega) hx with h | h
      · exact Or.inl (List.mem_cons_of_mem _ h)
      · exact Or.inr h
    · rw [show rleRow (c :: r) e
          = (if e = 0 then [] else (Nat.repr e).data) ++ c :: rleRow r 0 from by
            rw [rleRow, if_neg hdot]] at hx
      rcases List.mem_append.mp hx with h | h
      · by_cases h0 : e = 0
        · rw [if_pos h0] at h; simp at h
        · rw [if_neg h0] at h
          exact Or.inr
            (repr_data_isDigit e (Nat.one_le_iff_ne_zero.mpr h0) (by omega) x h)
      · rcases List.mem_cons.mp h with h | h
        · exact Or.inl (h ▸ List.mem_cons_self _ _)
        · rcases ih 0 x (by omega) h with h2 | h2
          · exact Or.inl (List.mem_cons_of_mem _ h2)
          · exact Or.inr h2

/-- The no-split-runs condition passes to the tail. -/
theorem noSplitRuns_cons_tail {c : Char} {r : List Char}
    (h : noSplitRuns (c :: r) = true) : noSplitRuns r = true := by
  cases r with
  | nil => rfl
  | cons b r2 =>
    have h' : ((!(c.isDigit && b.isDigit)) && noSplitRuns (b :: r2)) = true := h
    rw [Bool.and_eq_true] at h'
    exact h'.2

/-- The no-split-runs condition on the two leading characters. -/
theorem noSplitRuns_adj {c b : Char} {r2 : List Char}
    (h : noSplitRuns (c :: b :: r2) = true) :
    (!(c.isDigit && b.isDigit)) = true := by
  have h' : ((!(c.isDigit && b.isDigit)) && noSplitRuns (b :: r2)) = true := h
  rw [Bool.and_eq_true] at h'
  exact h'.1

/-- Re-encoding an expanded well-formed row restores the row. -/
theorem rleRow_expandRow (row : List Char) (hc : row.all fenCellOK = true)
    (hn : noSplitRuns row = true) : rleRow (expandRow row) 0 = row := by
  induction row with
  | nil => rfl
  | cons c r ih =>
    rw [List.all_cons, Bool.and_eq_true] at hc
    have hntail : noSplitRuns r = true := noSplitRuns_cons_tail hn
    by_cases hd : c.isDigit
    · have hmem : c ∈ ['1', '2', '3', '4', '5', '6', '7', '8'] := by
        have := hc.1
        rw [fenCellOK, if_pos hd] at this
        simpa using this
      obtain ⟨hrepr, hdv⟩ := repr_digitVal c hmem
      rw [show expandRow (c :: r) = List.replicate (digitVal c) '.' ++ expandRow r from by
          rw [expandRow, if_pos hd],
        rleRow_replicate, Nat.zero_add]
      cases r with
      | nil =>
        show (if digitVal c = 0 then [] else (Nat.repr (digitVal c)).data) = [c]
        rw [if_neg hdv, hrepr]
      | cons c2 r2 =>
        have hd2 : c2.isDigit = false := by
          have hadj : (!(c.isDigit && c2.isDigit)) = true := noSplitRuns_adj hn
          cases h2 : c2.isDigit
          · rfl
          · rw [hd, h2] at hadj; exact absurd hadj (by decide)
        have hne2 : ¬(c2 = '.') := by
          have h2 : fenCellOK c2 = true := by
            simpa using List.all_eq_true.mp hc.2 c2 (List.mem_cons_self _ _)
          rw [fenCellOK, if_neg (by simp [hd2])] at h2
          intro hx
          rw [hx] at h2
          exact absurd h2 (by decide)
        rw [show expandRow (c2 :: r2) = c2 :: expandRow r2 from by
          simp [expandRow, hd2]]
        rw [show rleRow (c2 :: expandRow r2) (digitVal c)
            = (if digitVal c = 0 then [] else (Nat.repr (digitVal c)).data)
              ++ c2 :: rleRow (expandRow r2) 0 from by rw [rleRow, if_neg hne2],
          if_neg hdv, hrepr]
        have hih := ih hc.2 hntail
        rw [show expandRow (c2 :: r2) = c2 :: expandRow r2 from by
          simp [expandRow, hd2]] at hih
        rw [show rleRow (c2 :: expandRow r2) 0
            = (if (0 : Nat) = 0 then [] else (Nat.repr 0).data)
              ++ c2 :: rleRow (expandRow r2) 0 from by rw [rleRow, if_neg hne2],
          if_pos rfl] at hih
        have htail : rleRow (expandRow r2) 0 = r2 := by
          simpa using hih
        rw [htail]
        rfl
    · have hce : ¬(c = '.') := by
        have h1 := hc.1
        rw [fenCellOK, if_neg (by simp [hd])] at h1
        intro hx
        rw [hx] at h1
        exact absurd h1 (by decide)
      rw [show expandRow (c :: r) = c :: expandRow r from by
          simp [expandRow, hd],
        show rleRow (c :: expandRow r) 0
            = (if (0 : Nat) = 0 then [] else (Nat.repr 0).data)
              ++ c :: rleRow (expandRow r) 0 from by rw [rleRow, if_neg hce],
        if_pos rfl, ih hc.2 hntail]
      rfl

/-- The expansion of a row has its total cell weight as length. -/
theorem expandRow_length (row : List Char) :
    (expandRow row).length = (row.map cellWeight).sum := by
  induction row with
  | nil => rfl
  | cons c r ih =>
    by_cases hd : c.isDigit
    · simp [expandRow, hd, cellWeight, ih]
    · simp [expandRow, hd, cellWeight, ih]
      omega

/-- Unfolding of `splitChar` on a cons. -/
theorem splitChar_cons (sep c : Char) (cs : List Char) :
    splitChar sep (c :: cs) =
      match splitChar sep cs with
      | [] => [[c]]
      | a :: as_ => if c = sep then [] :: a :: as_ else (c :: a) :: as_ := rfl

/-- `splitChar` never returns the empty list (Python `split` returns at least
one part). -/
theorem splitChar_ne_nil (sep : Char) (cs : List Char) :
    splitChar sep cs ≠ [] := by
  induction cs with
  | nil => simp [splitChar]
  | cons c cs ih =>
    rw [splitChar_cons]
    cases h : splitChar sep cs with
    | nil => simp
    | cons a as_ => by_cases hc : c = sep <;> simp [hc]

/-- A leading separator contributes an empty part. -/
theorem splitChar_sep_cons (sep : Char) (cs : List Char) :
    splitChar sep (sep :: cs) = [] :: splitChar sep cs := by
  rw [splitChar_cons]
  cases h : splitChar sep cs with
  | nil => exact absurd h (splitChar_ne_nil sep cs)
  | cons a as_ => simp

/-- A separator-free prefix extends the first part. -/
theorem splitChar_append (sep : Char) (l cs : List Char) (hl : sep ∉ l)
    (a : List Char) (as_ : List (List Char)) (h : splitChar sep cs = a :: as_) :
    splitChar sep (l ++ cs) = (l ++ a) :: as_ := by
  induction l with
  | nil => simpa using h
  | cons c l2 ih =>
    have hc : ¬(c = sep) := fun hh => hl (by rw [hh]; exact List.mem_cons_self _ _)
    have hl2 : sep ∉ l2 := fun hh => hl (List.mem_cons_of_mem _ hh)
    rw [List.cons_append, splitChar_cons, ih hl2]
    simp [hc]

/-- A leading non-separator extends the first part. -/
theorem splitChar_cons_ne (sep c : Char) (cs : List Char) (hc : ¬(c = sep))
    (a : List Char) (as_ : List (List Char)) (h : splitChar sep cs = a :: as_) :
    splitChar sep (c :: cs) = (c :: a) :: as_ := by
  have := splitChar_append sep [c] cs
    (by intro hh; exact hc (List.mem_singleton.mp hh).symm) a as_ h
  simpa using this

/-- Unfolding of `List.intercalate` on two or more parts. -/
theorem intercalate_cons_cons (s x y : List Char) (zs : List (List Char)) :
    List.intercalate s (x :: y :: zs) = x ++ s ++ List.intercalate s (y :: zs) := by
  simp [List.intercalate, List.intersperse_cons_cons, List.append_assoc]

/-- A character prepended to the first part prepends to the joined list. -/
theorem intercalate_cons_head (s : List Char) (c : Char) (a : List Char)
    (as_ : List (List Char)) :
    List.intercalate s ((c :: a) :: as_) = c :: List.intercalate s (a :: as_) := by
  cases as_ with
  | nil => simp [List.intercalate]
  | cons b bs => rw [intercalate_cons_cons, intercalate_cons_cons]; simp

/-- Joining with the separator undoes `splitChar`, with no condition: the
parts of any split rejoin to the original characters. -/
theorem intercalate_splitChar (sep : Char) (cs : List Char) :
    List.intercalate [sep] (splitChar sep cs) = cs := by
  induction cs with
  | nil => simp [splitChar, List.intercalate]
  | cons c cs ih =>
    cases h : splitChar sep cs with
    | nil => exact absurd h (splitChar_ne_nil sep cs)
    | cons a as_ =>
      rw [h] at ih
      by_cases hc : c = sep
      · subst hc
        rw [splitChar_sep_cons, h, intercalate_cons_cons, ih]
        rfl
      · rw [splitChar_cons_ne sep c cs hc a as_ h, intercalate_cons_head, ih]

/-- `splitChar` undoes joining separator-free nonempty parts. -/
theorem splitChar_intercalate (sep : Char) (ls : List (List Char))
    (hne : ls ≠ []) (hsep : ∀ l ∈ ls, sep ∉ l) :
    splitChar sep (List.intercalate [sep] ls) = ls := by
  induction ls with
  | nil => exact absurd rfl hne
  | cons l ls2 ih =>
    cases ls2 with
    | nil =>
      have h1 : List.intercalate [sep] [l] = l := by simp [List.intercalate]
      rw [h1]
      have h2 := splitChar_append sep l [] (hsep l (List.mem_cons_self _ _)) [] [] rfl
      simpa using h2
    | cons m ms =>
      rw [intercalate_cons_cons, List.append_assoc]
      have hrec := ih (by simp) (fun x hx => hsep x (List.mem_cons_of_mem _ hx))
      have h2 : splitChar sep (sep :: List.intercalate [sep] (m :: ms))
          = [] :: (m :: ms) := by rw [splitChar_sep_cons, hrec]
      have h3 := splitChar_append sep l (sep :: List.intercalate [sep] (m :: ms))
        (hsep l (List.mem_cons_self _ _)) [] (m :: ms) h2
      simpa using h3

/-- Pointwise-equal functions give equal `flatMap`s. -/
theorem flatMap_congr_mem {α β : Type} (l : List α) (f g : α → List β)
    (h : ∀ a ∈ l, f a = g a) : l.flatMap f = l.flatMap g := by
  induction l with
  | nil => rfl
  | cons a t ih =>
    rw [List.flatMap_cons, List.flatMap_cons, h a (List.mem_cons_self _ _),
      ih (fun x hx => h x (List.mem_cons_of_mem _ hx))]

/-- The flat concatenation of length-8 blocks recovers each block as the
corresponding 8-cell chunk. -/
theorem flatMap_chunks (f : List Char → List Char) (ls : List (List Char)) :
    ∀ r, (∀ l ∈ ls, (f l).length = 8) → r < ls.length →
      ((ls.flatMap f).drop (r * 8)).take 8 = f (ls.getD r []) := by
  induction ls with
  | nil => intro r _ hr; exact absurd hr (by simp)
  | cons l ls2 ih =>
    intro r hlen hr
    cases r with
    | zero =>
      rw [List.flatMap_cons, Nat.zero_mul, List.drop_zero, List.getD_cons_zero]
      exact List.take_left' (hlen l (List.mem_cons_self _ _))
    | succ r2 =>
      have h8 : (f l).length = 8 := hlen l (List.mem_cons_self _ _)
      rw [List.flatMap_cons, List.getD_cons_succ,
        show (r2 + 1) * 8 = 8 + r2 * 8 from by ring, ← List.drop_drop,
        List.drop_left' h8]
      exact ih r2 (fun x hx => hlen x (List.mem_cons_of_mem _ hx))
        (by rw [List.length_cons] at hr; omega)

/-- Cutting a 64-cell list into its eight 8-cell chunks and re-joining them
is the identity. -/
theorem chunks_join : ∀ (n : Nat) (B : List Char), B.length = 8 * n →
    (List.range n).flatMap (fun r => (B.drop (r * 8)).take 8) = B := by
  intro n
  induction n with
  | zero =>
    intro B hB
    cases B with
    | nil => rfl
    | cons c t => rw [List.length_cons] at hB; omega
  | succ n2 ih =>
    intro B hB
    rw [List.range_succ_eq_map, List.flatMap_cons, List.flatMap_map,
      Nat.zero_mul, List.drop_zero]
    have hpt : ∀ r ∈ List.range n2,
        ((B.drop (Nat.succ r * 8)).take 8)
          = (((B.drop 8).drop (r * 8)).take 8) := by
      intro r _
      rw [List.drop_drop, show 8 + r * 8 = Nat.succ r * 8 from by omega]
    rw [flatMap_congr_mem _ _ _ hpt,
      ih (B.drop 8) (by rw [List.length_drop]; omega)]
    exact List.take_append_drop 8 B

/-- Lookup with default at each position rebuilds the list. -/
theorem map_range_getD (ls : List (List Char)) :
    (List.range ls.length).map (fun r => ls.getD r []) = ls := by
  apply List.ext_getElem
  · simp
  · intro i h1 h2
    simp only [List.getElem_map, List.getElem_range]
    exact List.getD_eq_getElem ls [] h2

/-- Decoding the encoding: `from_fen` recovers any 64-cell board whose cells
are actual board cells (not digits, not the row separator). -/
theorem board_fen_left_inverse (B : List Char) (hB : B.length = 64)
    (hcell : ∀ c ∈ B, c.isDigit = false ∧ c ≠ '/') :
    board_from_fen (board_to_fen B) = some B := by
  have hchunklen : ∀ r, r < 8 → ((B.drop (r * 8)).take 8).length = 8 := by
    intro r hr
    rw [List.length_take, List.length_drop, hB]
    omega
  have hchunkmem : ∀ r, ∀ c ∈ (B.drop (r * 8)).take 8,
      c.isDigit = false ∧ c ≠ '/' :=
    fun r c hc => hcell c (List.mem_of_mem_drop (List.mem_of_mem_take hc))
  have hsplit : splitChar '/' (board_to_fen B).data
      = (List.range 8).map (fun r => rleRow ((B.drop (r * 8)).take 8) 0) := by
    show splitChar '/' (List.intercalate ['/']
        ((List.range 8).map (fun r => rleRow ((B.drop (r * 8)).take 8) 0))) = _
    refine splitChar_intercalate '/' _ (by simp) ?_
    intro l hl
    rw [List.mem_map] at hl
    obtain ⟨r, hr, rfl⟩ := hl
    intro hmem
    rcases mem_rleRow _ 0 '/'
        (by rw [hchunklen r (List.mem_range.mp hr)]) hmem with h | h
    · exact (hchunkmem r '/' h).2 rfl
    · exact absurd h (by decide)
  have hexp : ((List.range 8).map
      (fun r => rleRow ((B.drop (r * 8)).take 8) 0)).flatMap expandRow = B := by
    rw [List.flatMap_map]
    have hpt : ∀ r ∈ List.range 8,
        expandRow (rleRow ((B.drop (r * 8)).take 8) 0)
          = (B.drop (r * 8)).take 8 := by
      intro r hr
      rw [expandRow_rleRow _ 0 (by rw [hchunklen r (List.mem_range.mp hr)])
        (fun c hc => (hchunkmem r c hc).1)]
      rfl
    rw [flatMap_congr_mem _ _ _ hpt]
    exact chunks_join 8 B (by rw [hB])
  simp only [board_from_fen]
  rw [hsplit, if_neg (by simp), hexp, if_neg (by rw [hB]; simp)]

/-- Encoding the decoding: `to_fen` recovers any well-formed board FEN. -/
theorem board_fen_right_inverse (s : String) (h : fenWF s = true) :
    board_from_fen s = some ((splitChar '/' s.data).flatMap expandRow)
    ∧ board_to_fen ((splitChar '/' s.data).flatMap expandRow) = s := by
  simp only [fenWF, Bool.and_eq_true, beq_iff_eq, List.all_eq_true] at h
  obtain ⟨h8, hall⟩ := h
  have hrow : ∀ row ∈ splitChar '/' s.data,
      row.all fenCellOK = true ∧ noSplitRuns row = true
        ∧ (row.map cellWeight).sum = 8 := by
    intro row hr
    have hw := hall row hr
    rw [rowWF, Bool.and_eq_true, Bool.and_eq_true, beq_iff_eq] at hw
    exact ⟨hw.1.1, hw.1.2, hw.2⟩
  have hlen8 : ∀ row ∈ splitChar '/' s.data, (expandRow row).length = 8 := by
    intro row hr
    rw [expandRow_length]
    exact (hrow row hr).2.2
  have hBlen : ((splitChar '/' s.data).flatMap expandRow).length = 64 := by
    have : ∀ ls : List (List Char), (∀ l ∈ ls, (expandRow l).length = 8) →
        (ls.flatMap expandRow).length = 8 * ls.length := by
      intro ls
      induction ls with
      | nil => intro _; rfl
      | cons l t ih =>
        intro hl
        rw [List.flatMap_cons, List.length_append, hl l (List.mem_cons_self _ _),
          ih (fun x hx => hl x (List.mem_cons_of_mem _ hx)), List.length_cons]
        ring
    rw [this _ hlen8, h8]
  constructor
  · simp only [board_from_fen]
    rw [if_neg (by rw [h8]; simp), if_neg (by rw [hBlen]; simp)]
  · simp only [board_to_fen]
    have hmapeq : (List.range 8).map (fun r =>
        rleRow ((((splitChar '/' s.data).flatMap expandRow).drop (r * 8)).take 8) 0)
        = splitChar '/' s.data := by
      have hpt : ∀ r ∈ List.range 8,
          rleRow ((((splitChar '/' s.data).flatMap expandRow).drop (r * 8)).take 8) 0
            = (splitChar '/' s.data).getD r [] := by
        intro r hr
        have hr8 := List.mem_range.mp hr
        rw [flatMap_chunks expandRow _ r hlen8 (by rw [h8]; exact hr8)]
        have hmem : (splitChar '/' s.data).getD r [] ∈ splitChar '/' s.data := by
          rw [List.getD_eq_getElem _ _ (by rw [h8]; exact hr8)]
          exact List.getElem_mem _
        exact rleRow_expandRow _ (hrow _ hmem).1 (hrow _ hmem).2.1
      rw [List.map_congr_left hpt,
        show (8 : Nat) = (splitChar '/' s.data).length from h8.symm]
      exact map_range_getD _
    rw [hmapeq, intercalate_splitChar]

/-- C6.  `Board.to_fen` and `Board.from_fen` are mutually inverse: decoding
the encoding recovers every 64-cell board whose cells are board cells (piece
letters or the empty cell `.` — never digits or `/`, the spec's board data
model); encoding the decoding recovers every well-formed board FEN (8 rows of
8 cells with single-digit empty runs, per `fenWF`); and the starting-position
FEN round-trips exactly. -/
theorem fen_roundtrip :
    (∀ B : List Char, B.length = 64 →
        (∀ c ∈ B, c.isDigit = false ∧ c ≠ '/') →
        board_from_fen (board_to_fen B) = some B)
    ∧ (∀ s : String, fenWF s = true →
        ∃ B, board_from_fen s = some B ∧ board_to_fen B = s)
    ∧ (board_from_fen START_FEN).map board_to_fen = some START_FEN := by
  refine ⟨board_fen_left_inverse, ?_, by decide⟩
  intro s hs
  exact ⟨_, (board_fen_right_inverse s hs).1, (board_fen_right_inverse s hs).2⟩

/-- Witness for C6 at the starting position: its board is 64 proper cells and
its FEN is well-formed, so both inverse directions apply to it concretely. -/
theorem fen_roundtrip_witness :
    board_from_fen (board_to_fen (fenBoard START_FEN)) = some (fenBoard START_FEN)
    ∧ ∃ B, board_from_fen START_FEN = some B ∧ board_to_fen B = START_FEN :=
  ⟨fen_roundtrip.1 (fenBoard START_FEN) (by decide) (by decide),
   fen_roundtrip.2.1 START_FEN (by decide)⟩

/-! ## Evaluation bound -/

/-- Test input: seven white queens against the bare black king (reachable
over-promotion material), white to move. -/
def sevenQueensState : GameState :=
  mkGameState (fenBoard "QQQQQQ1k/8/8/8/8/8/8/6QK") 'w' [] none 0 1

/-- C7 (counter-evidence).  `evaluate_position` with no model — that is,
`simple_material_eval`, documented as "scaled to [-1, 1]" — returns
6300/4000 = 1.575 > 1 on the seven-queens position: the score is divided by
the fixed start-material total 4000 but never clamped, so positions with
more than the starting material imbalance escape the claimed interval. -/
theorem evaluate_position_exceeds_unit_bound :
    game_state_from_fen "QQQQQQ1k/8/8/8/8/8/8/6QK w - - 0 1"
        = some sevenQueensState
    ∧ 1 < evaluate_position sevenQueensState none := by
  constructor
  · decide
  · have hs : (sevenQueensState.board.foldl
        (fun acc piece =>
          if piece = '.' then acc
          else if piece_color piece = some 'w' then
            acc + (PIECE_VALUES piece.toUpper : Int)
          else acc - (PIECE_VALUES piece.toUpper : Int))
        0) = 6300 := by decide
    simp only [evaluate_position, simple_material_eval]
    rw [hs, if_pos (show sevenQueensState.side_to_move = 'w' from rfl)]
    norm_num

/-! ## Search finiteness and best-move selection -/

/-- Insertion keeps exactly the inserted move and the old elements. -/
theorem mem_insert_desc (x m : Move) (l : List Move) :
    x ∈ insert_desc m l ↔ x = m ∨ x ∈ l := by
  induction l with
  | nil => simp [insert_desc]
  | cons y ys ih =>
    rw [insert_desc]
    by_cases h : move_score y ≤ move_score m
    · rw [if_pos h]; simp
    · rw [if_neg h]
      simp only [List.mem_cons, ih]
      tauto

/-- Ordering moves does not change the set of moves. -/
theorem mem_order_moves (x : Move) (l : List Move) :
    x ∈ order_moves l ↔ x ∈ l := by
  induction l with
  | nil => simp [order_moves]
  | cons m ms ih =>
    rw [order_moves, mem_insert_desc]
    simp [ih]

/-- Insertion never produces the empty list. -/
theorem insert_desc_ne_nil (m : Move) (l : List Move) : insert_desc m l ≠ [] := by
  cases l with
  | nil => simp [insert_desc]
  | cons y ys =>
    rw [insert_desc]
    by_cases h : move_score y ≤ move_score m
    · rw [if_pos h]; simp
    · rw [if_neg h]; simp

/-- Ordering moves preserves emptiness. -/
theorem order_moves_eq_nil (l : List Move) : order_moves l = [] ↔ l = [] := by
  cases l with
  | nil => simp [order_moves]
  | cons m ms =>
    rw [order_moves]
    simp [insert_desc_ne_nil m (order_moves ms)]

/-- Negating a score other than `-inf` cannot give `+inf`. -/
theorem neg_ne_posInf : ∀ {x : Score}, x ≠ Score.negInf →
    Score.neg x ≠ Score.posInf
  | Score.negInf, h => absurd rfl h
  | Score.fin _, _ => by simp [Score.neg]
  | Score.posInf, _ => by simp [Score.neg]

/-- Negating a score other than `+inf` cannot give `-inf`. -/
theorem neg_ne_negInf : ∀ {x : Score}, x ≠ Score.posInf →
    Score.neg x ≠ Score.negInf
  | Score.posInf, h => absurd rfl h
  | Score.negInf, _ => by simp [Score.neg]
  | Score.fin _, _ => by simp [Score.neg]

/-- Negation on a finite score. -/
theorem neg_fin (q : ℚ) : Score.neg (Score.fin q) = Score.fin (-q) := rfl

/-- The maximum of a non-`+inf` score and a finite score is finite. -/
theorem maxS_with_fin {x : Score} (q : ℚ) (hx : x ≠ Score.posInf) :
    ∃ c, Score.maxS x (Score.fin q) = Score.fin c := by
  cases x with
  | negInf => exact ⟨q, rfl⟩
  | fin a =>
    unfold Score.maxS
    by_cases h : Score.lt (Score.fin a) (Score.fin q) = true
    · rw [if_pos h]; exact ⟨q, rfl⟩
    · rw [if_neg h]; exact ⟨a, rfl⟩
  | posInf => exact absurd rfl hx

/-- A score below a finite score is finite once `-inf` is excluded. -/
theorem beta_fin_of_le {beta : Score} {q : ℚ}
    (h : Score.le beta (Score.fin q) = true) (hb : beta ≠ Score.negInf) :
    ∃ qb, beta = Score.fin qb := by
  cases beta with
  | negInf => exact absurd rfl hb
  | fin qb => exact ⟨qb, rfl⟩
  | posInf =>
    have hf : Score.le Score.posInf (Score.fin q) = false := rfl
    rw [hf] at h
    exact Bool.noConfusion h

/-- The capture loop returns a finite score whenever the running alpha is
finite, beta is not `-inf`, and the recursive evaluation is finite on proper
windows. -/
theorem quiescence_loop_fin (recur : GameState → Score → Score → Score)
    (hrec : ∀ s2 a b, a ≠ Score.posInf → b ≠ Score.negInf →
      ∃ q, recur s2 a b = Score.fin q)
    (s : GameState) :
    ∀ (ms : List Move) (alpha beta : Score) (qa : ℚ), alpha = Score.fin qa →
      beta ≠ Score.negInf →
      ∃ q, quiescence_loop recur s ms alpha beta = Score.fin q := by
  intro ms
  induction ms with
  | nil =>
    intro alpha beta qa ha _
    exact ⟨qa, ha ▸ rfl⟩
  | cons m rest ih =>
    intro alpha beta qa ha hb
    rw [quiescence_loop]
    by_cases hskip : (m.captured = none && m.is_en_passant = false) = true
    · rw [if_pos hskip]
      exact ih alpha beta qa ha hb
    · rw [if_neg hskip]
      cases hmk2 : make_move s m with
      | none => exact ih alpha beta qa ha hb
      | some s2 =>
        obtain ⟨qr, hqr⟩ := hrec s2 (Score.neg beta) (Score.neg alpha)
          (neg_ne_posInf hb) (by rw [ha]; simp [Score.neg])
        simp only [hqr, neg_fin]
        by_cases hcut : Score.le beta (Score.fin (-qr)) = true
        · rw [if_pos hcut]
          exact beta_fin_of_le hcut hb
        · rw [if_neg hcut]
          obtain ⟨qa2, ha2⟩ := maxS_with_fin (-qr)
            (show alpha ≠ Score.posInf from by rw [ha]; simp)
          rw [ha2]
          exact ih _ beta qa2 rfl hb

/-- `quiescence_search` returns a finite score on every proper window. -/
theorem quiescence_fin (model : Option (GameState → ℚ)) :
    ∀ (qd : Nat) (s : GameState) (alpha beta : Score),
      alpha ≠ Score.posInf → beta ≠ Score.negInf →
      ∃ q, quiescence_search model qd s alpha beta = Score.fin q := by
  intro qd
  induction qd with
  | zero =>
    intro s alpha beta _ hb
    simp only [quiescence_search]
    by_cases hcut : Score.le beta (Score.fin (evaluate_position s model)) = true
    · rw [if_pos hcut]
      exact beta_fin_of_le hcut hb
    · rw [if_neg hcut]
      exact ⟨_, rfl⟩
  | succ qd2 ih =>
    intro s alpha beta ha hb
    simp only [quiescence_search]
    by_cases hcut : Score.le beta (Score.fin (evaluate_position s model)) = true
    · rw [if_pos hcut]
      exact beta_fin_of_le hcut hb
    · rw [if_neg hcut]
      obtain ⟨qa, hqa⟩ := maxS_with_fin (evaluate_position s model) ha
      exact quiescence_loop_fin (quiescence_search model qd2) ih s _ _ beta qa hqa hb

/-- One step of the negamax loop at an applying move. -/
theorem alpha_beta_loop_cons_some (recur : GameState → Score → Score → Score)
    (s : GameState) (m : Move) (rest : List Move) (value alpha beta : Score)
    (s2 : GameState) (h : make_move s m = some s2) :
    alpha_beta_loop recur s (m :: rest) value alpha beta =
      (let score := Score.neg (recur s2 (Score.neg beta) (Score.neg alpha));
       let value2 := Score.maxS value score;
       let alpha2 := Score.maxS alpha score;
       if Score.le beta alpha2 then value2
       else alpha_beta_loop recur s rest value2 alpha2 beta) := by
  rw [alpha_beta_loop, h]

/-- The negamax loop returns a finite score: the running value is `-inf`
only before the first applying move, and every applying move yields a finite
score under the recursion hypothesis. -/
theorem alpha_beta_loop_fin (recur : GameState → Score → Score → Score)
    (hrec : ∀ s2 a b, a ≠ Score.posInf → b ≠ Score.negInf →
      ∃ q, recur s2 a b = Score.fin q)
    (s : GameState) :
    ∀ (ms : List Move) (value alpha beta : Score),
      (∀ m ∈ ms, (make_move s m).isSome = true) →
      value ≠ Score.posInf → alpha ≠ Score.posInf → beta ≠ Score.negInf →
      (value = Score.negInf → ms ≠ []) →
      ∃ q, alpha_beta_loop recur s ms value alpha beta = Score.fin q := by
  intro ms
  induction ms with
  | nil =>
    intro value alpha beta _ hv _ _ hnil
    cases value with
    | negInf => exact absurd rfl (hnil rfl)
    | fin q => exact ⟨q, rfl⟩
    | posInf => exact absurd rfl hv
  | cons m rest ih =>
    intro value alpha beta hmk hv ha hb _
    obtain ⟨s2, hs2⟩ := Option.isSome_iff_exists.mp (hmk m (List.mem_cons_self _ _))
    rw [alpha_beta_loop_cons_some recur s m rest value alpha beta s2 hs2]
    obtain ⟨qs, hqs⟩ := hrec s2 (Score.neg beta) (Score.neg alpha)
      (neg_ne_posInf hb) (neg_ne_negInf ha)
    simp only [hqs, neg_fin]
    obtain ⟨qv2, hv2⟩ := maxS_with_fin (-qs) hv
    obtain ⟨qa2, ha2⟩ := maxS_with_fin (-qs) ha
    rw [hv2, ha2]
    by_cases hcut : Score.le beta (Score.fin qa2) = true
    · rw [if_pos hcut]
      exact ⟨qv2, rfl⟩
    · rw [if_neg hcut]
      exact ih (Score.fin qv2) (Score.fin qa2) beta
        (fun x hx => hmk x (List.mem_cons_of_mem _ hx))
        (by simp) (by simp) hb (by simp)

/-- `alpha_beta` returns a finite score on every proper window: draw scores,
quiescence scores, mate and stalemate scores are finite, and the loop keeps
finiteness by induction on depth. -/
theorem alpha_beta_fin (model : Option (GameState → ℚ)) :
    ∀ (d : Nat) (s : GameState) (alpha beta : Score) (qd : Nat),
      alpha ≠ Score.posInf → beta ≠ Score.negInf →
      ∃ q, alpha_beta model d s alpha beta qd = Score.fin q := by
  intro d
  induction d with
  | zero =>
    intro s alpha beta qd ha hb
    rw [alpha_beta]
    by_cases hdraw : (100 ≤ s.halfmove_clock || insufficient_material s
        || is_draw_by_repetition s) = true
    · rw [if_pos hdraw]
      exact ⟨0, rfl⟩
    · rw [if_neg hdraw]
      exact quiescence_fin model qd s alpha beta ha hb
  | succ d2 ih =>
    intro s alpha beta qd ha hb
    rw [alpha_beta]
    by_cases hdraw : (100 ≤ s.halfmove_clock || insufficient_material s
        || is_draw_by_repetition s) = true
    · rw [if_pos hdraw]
      exact ⟨0, rfl⟩
    · rw [if_neg hdraw]
      show ∃ q, (match order_moves (generate_legal_moves s) with
        | [] =>
          if is_in_check s s.side_to_move == some true then
            Score.fin (-MATE_VALUE + (5 - ((d2 + 1 : Nat) : ℚ)))
          else Score.fin 0
        | m :: rest =>
          alpha_beta_loop (fun s3 a b => alpha_beta model d2 s3 a b qd) s
            (m :: rest) Score.negInf alpha beta) = Score.fin q
      cases hms : order_moves (generate_legal_moves s) with
      | nil =>
        by_cases hchk : (is_in_check s s.side_to_move == some true) = true
        · rw [if_pos hchk]
          exact ⟨_, rfl⟩
        · rw [if_neg hchk]
          exact ⟨0, rfl⟩
      | cons m rest =>
        refine alpha_beta_loop_fin _ (fun s3 a b h1 h2 => ih s3 a b qd h1 h2) s
          (m :: rest) Score.negInf alpha beta ?_ (by simp) ha hb (by simp)
        intro m2 hm2
        have hmem : m2 ∈ generate_legal_moves s :=
          (mem_order_moves _ _).mp (hms ▸ hm2)
        obtain ⟨_, s3, hmk3, _⟩ := mem_generate_legal_moves.mp hmem
        rw [hmk3]
        rfl

/-- One step of the root loop at an applying move. -/
theorem search_root_loop_cons_some (model : Option (GameState → ℚ))
    (s : GameState) (d qd : Nat) (m : Move) (rest : List Move)
    (best : Option Move) (alpha : Score) (s2 : GameState)
    (h : make_move s m = some s2) :
    search_root_loop model s d qd (m :: rest) best alpha =
      (let score := Score.neg (alpha_beta model (d - 1) s2
          (Score.neg Score.posInf) (Score.neg alpha) qd);
       if Score.lt alpha score then
         search_root_loop model s d qd rest (some m) score
       else search_root_loop model s d qd rest best alpha) := by
  rw [search_root_loop, h]

/-- The root loop returns a legal best move and a finite score, as long as
either a finite best is already in hand or at least one move remains (the
first applying move always beats the initial `-inf` alpha). -/
theorem search_root_loop_spec (model : Option (GameState → ℚ)) (s : GameState)
    (d qd : Nat) :
    ∀ (ms : List Move) (best : Option Move) (alpha : Score),
      (∀ m ∈ ms, (make_move s m).isSome = true) →
      ((∃ qa mb, alpha = Score.fin qa ∧ best = some mb
          ∧ mb ∈ generate_legal_moves s)
        ∨ (alpha = Score.negInf ∧ best = none ∧ ms ≠ [])) →
      (∀ m ∈ ms, m ∈ generate_legal_moves s) →
      ∃ m q, search_root_loop model s d qd ms best alpha = (some m, Score.fin q)
        ∧ m ∈ generate_legal_moves s := by
  intro ms
  induction ms with
  | nil =>
    intro best alpha _ hinv _
    rcases hinv with ⟨qa, mb, ha, hbst, hmem⟩ | ⟨_, _, hne⟩
    · exact ⟨mb, qa, by rw [hbst, ha]; rfl, hmem⟩
    · exact absurd rfl hne
  | cons m rest ih =>
    intro best alpha hmk hinv hleg
    obtain ⟨s2, hs2⟩ := Option.isSome_iff_exists.mp (hmk m (List.mem_cons_self _ _))
    have halpha_ne : alpha ≠ Score.posInf := by
      rcases hinv with ⟨qa, mb, ha, _⟩ | ⟨ha, _⟩ <;> rw [ha] <;> simp
    obtain ⟨qs, hqs⟩ := alpha_beta_fin model (d - 1) s2 (Score.neg Score.posInf)
      (Score.neg alpha) qd (by simp [Score.neg]) (neg_ne_negInf halpha_ne)
    rw [search_root_loop_cons_some model s d qd m rest best alpha s2 hs2]
    simp only [hqs, neg_fin]
    by_cases himp : Score.lt alpha (Score.fin (-qs)) = true
    · rw [if_pos himp]
      exact ih (some m) (Score.fin (-qs))
        (fun x hx => hmk x (List.mem_cons_of_mem _ hx))
        (Or.inl ⟨-qs, m, rfl, rfl, hleg m (List.mem_cons_self _ _)⟩)
        (fun x hx => hleg x (List.mem_cons_of_mem _ hx))
    · rw [if_neg himp]
      rcases hinv with ⟨qa, mb, ha, hbst, hbm⟩ | ⟨ha, _, _⟩
      · exact ih best alpha (fun x hx => hmk x (List.mem_cons_of_mem _ hx))
          (Or.inl ⟨qa, mb, ha, hbst, hbm⟩)
          (fun x hx => hleg x (List.mem_cons_of_mem _ hx))
      · exfalso
        apply himp
        rw [ha]
        rfl

/-- C4.  `search_best_move` returns exactly `(None, 0.0)` on a position with
no legal moves (checkmate or stalemate), and on a position with a legal move
at depth ≥ 1 it returns a move from the legal-move list together with a
finite score — for every evaluator (evaluators are real-valued, hence
finite). -/
theorem search_best_move_spec :
    (∀ (model : Option (GameState → ℚ)) (s : GameState) (d qd : Nat),
        generate_legal_moves s = [] →
        search_best_move model s d qd = (none, Score.fin 0))
    ∧ (∀ (model : Option (GameState → ℚ)) (s : GameState) (d qd : Nat),
        1 ≤ d → generate_legal_moves s ≠ [] →
        ∃ m q, search_best_move model s d qd = (some m, Score.fin q)
          ∧ m ∈ generate_legal_moves s) := by
  constructor
  · intro model s d qd h
    rw [search_best_move, h]
    rfl
  · intro model s d qd _ hne
    cases hms : order_moves (generate_legal_moves s) with
    | nil => exact absurd ((order_moves_eq_nil _).mp hms) hne
    | cons m rest =>
      rw [search_best_move, hms]
      refine search_root_loop_spec model s d qd (m :: rest) none Score.negInf
        ?_ (Or.inr ⟨rfl, rfl, by simp⟩) ?_
      · intro m2 hm2
        have hmem : m2 ∈ generate_legal_moves s :=
          (mem_order_moves _ _).mp (hms ▸ hm2)
        obtain ⟨_, s3, hmk3, _⟩ := mem_generate_legal_moves.mp hmem
        rw [hmk3]
        rfl
      · intro m2 hm2
        exact (mem_order_moves _ _).mp (hms ▸ hm2)

/-- Test input: black to move, stalemated — black king a8, white queen c7,
white king c6. -/
def stalemateState : GameState :=
  mkGameState (fenBoard "k7/2Q5/2K5/8/8/8/8/8") 'b' [] none 0 1

/-- Witness for C4: the stalemate position has no legal move and search
returns `(none, 0.0)` there; the rook endgame `krkState` has legal moves and
the theorem produces a legal best move with a finite score at depth 1. -/
theorem search_best_move_spec_witness :
    (generate_legal_moves stalemateState = []
      ∧ search_best_move none stalemateState 3 2 = (none, Score.fin 0))
    ∧ (generate_legal_moves krkState ≠ []
      ∧ ∃ m q, search_best_move none krkState 1 0 = (some m, Score.fin q)
          ∧ m ∈ generate_legal_moves krkState) :=
  ⟨⟨by decide, search_best_move_spec.1 none stalemateState 3 2 (by decide)⟩,
   ⟨by decide, search_best_move_spec.2 none krkState 1 0 (by decide) (by decide)⟩⟩

end Knightmare
